import Mathlib

/-!
LRU page-replacement policy (`lab3/kern/mm/swap_lru.c`)

A shallow embedding of the LRU swap manager and a verification of its
recency-tracking contract.

* A `struct Page *` is a natural number (the pointer); the heap is a function
  from pointers to the two fields of `struct Page` the policy reads and writes.
* The intrusive circular list hanging off `lru_list_head` is the list of the
  linked pages read from `list_next(&lru_list_head)` to `list_prev(&lru_list_head)`.
* The hash table is its bucket array; a bucket is the chain of the pages whose
  `hash_entry` is linked there.  `to_struct` is the identity on pointers.
* `cprintf` and `print_lru_list` only write diagnostics and are left out.
* `uintptr_t` values are natural numbers: the only arithmetic on them is
  `key % BUCKET_SIZE`, which cannot overflow.
-/

namespace SwapLru

/-! ## Data model -/

/-- The fields of `struct Page` used by the policy: `pra_vaddr` and
`hash_entry.key`. -/
structure Page where
  pra_vaddr : Nat
  key : Nat
deriving DecidableEq

/-- Modelled from the spec: `hashtable_t` of `hash_table.h`, which is not part
of the sources at hand.  Spec §3: a mapping with a bucket count fixed at
construction; a bucket is a singly linked chain of entries. -/
structure hashtable_t where
  size : Nat
  buckets : Nat → List Nat

/-- The address space argument; the policy only writes its `sm_priv` field
(`true` once it points at `lru_list_head`). -/
structure mm_struct where
  sm_priv : Bool
deriving DecidableEq

/-- The static state of `swap_lru.c` together with the page heap. -/
structure State where
  pages : Nat → Page
  lru_list_head : List Nat
  page_hash_table : hashtable_t

/-- Heap write `*p = v`. -/
def store (pages : Nat → Page) (p : Nat) (v : Page) : Nat → Page :=
  fun q => if q = p then v else pages q

/-- Bucket array write `buckets[i] = chain`. -/
def setBucket (buckets : Nat → List Nat) (i : Nat) (chain : List Nat) : Nat → List Nat :=
  fun j => if j = i then chain else buckets j

/-! ## `list.h` -/

/-- Modelled from the spec: `list_init` of `list.h` (absent from the sources).
Spec §3: an empty list is exactly the sentinel pointing to itself. -/
def list_init : List Nat := []

/-- Modelled from the spec: `list_add(&lru_list_head, elm)` of `list.h` (absent
from the sources).  Spec §4.2 `push_front`: inserts the entry immediately after
the sentinel. -/
def list_add (l : List Nat) (elm : Nat) : List Nat := elm :: l

/-- Modelled from the spec: `list_del(elm)` of `list.h` (absent from the
sources).  Spec §4.2 `remove`: detaches the entry from wherever it sits and
re-links its neighbours. -/
def list_del (l : List Nat) (elm : Nat) : List Nat := l.erase elm

/-- Modelled from the spec: `list_prev(&lru_list_head)` of `list.h` (absent from
the sources).  Spec §4.2 `back`: the tail entry, or none (the sentinel itself)
when the list is empty. -/
def list_prev (l : List Nat) : Option Nat := l.getLast?

/-- Modelled from the spec: `list_next(&lru_list_head)` of `list.h` (absent from
the sources): the node after the sentinel, or none (the sentinel itself) when
the list is empty. -/
def list_next (l : List Nat) : Option Nat := l.head?

/-! ## `hash_table.h` -/

/-- Modelled from the spec: `hashtable_init` of `hash_table.h` (absent from the
sources).  Spec §4.3 `init`: resets the Index to empty, with the bucket count
fixed at construction. -/
def hashtable_init (size : Nat) : hashtable_t :=
  { size := size, buckets := fun _ => [] }

/-- Modelled from the spec: `hashtable_get` of `hash_table.h` (absent from the
sources).  Spec §4.1 `lookup`: point lookup in the bucket selected by
`hash(identity) mod bucket_count`; a missing key yields "not found". -/
def hashtable_get (pages : Nat → Page) (ht : hashtable_t) (key : Nat)
    (hash : Nat → Nat) : Option Nat :=
  (ht.buckets (hash key % ht.size)).find? (fun e => (pages e).key == key)

/-- Modelled from the spec: `hashtable_insert` of `hash_table.h` (absent from
the sources).  Spec §4.1 `insert`: appends the entry to the bucket selected by
`hash(identity) mod bucket_count`. -/
def hashtable_insert (pages : Nat → Page) (ht : hashtable_t) (entry : Nat)
    (hash : Nat → Nat) : hashtable_t :=
  let i := hash (pages entry).key % ht.size
  { ht with buckets := setBucket ht.buckets i (ht.buckets i ++ [entry]) }

/-- Modelled from the spec: `hashtable_remove` of `hash_table.h` (absent from
the sources).  Spec §4.1 `remove`: detaches the entry from its bucket chain. -/
def hashtable_remove (pages : Nat → Page) (ht : hashtable_t) (entry : Nat)
    (hash : Nat → Nat) : hashtable_t :=
  let i := hash (pages entry).key % ht.size
  { ht with buckets := setBucket ht.buckets i ((ht.buckets i).erase entry) }

/-! ## `swap_lru.c` -/

def BUCKET_SIZE : Nat := 4

def hash_function (key : Nat) : Nat := key % BUCKET_SIZE

/-- `_lru_init_mm`: returns the status, the updated `mm` and the new state. -/
def _lru_init_mm (mm : mm_struct) (s : State) : Int × mm_struct × State :=
  let _ := mm
  (0, { sm_priv := true },
    { pages := s.pages
      lru_list_head := list_init
      page_hash_table := hashtable_init BUCKET_SIZE })

/-- `_lru_map_swappable`: `page` is the pointer argument. -/
def _lru_map_swappable (mm : mm_struct) (addr : Nat) (page : Nat) (swap_in : Int)
    (s : State) : Int × State :=
  let _ := mm
  let _ := swap_in
  let pages := store s.pages page { pra_vaddr := addr, key := addr }
  match hashtable_get pages s.page_hash_table addr hash_function with
  | some found_page =>
    (0, { pages := pages
          lru_list_head := list_add (list_del s.lru_list_head found_page) found_page
          page_hash_table := s.page_hash_table })
  | none =>
    (0, { pages := pages
          lru_list_head := list_add s.lru_list_head page
          page_hash_table := hashtable_insert pages s.page_hash_table page hash_function })

/-- `_lru_swap_out_victim`: returns the status, `*ptr_page` (`none` is `NULL`)
and the new state. -/
def _lru_swap_out_victim (mm : mm_struct) (in_tick : Int) (s : State) :
    Int × Option Nat × State :=
  let _ := mm
  let _ := in_tick
  match list_prev s.lru_list_head with
  | none => (0, none, s)
  | some page =>
    (0, some page,
      { pages := s.pages
        lru_list_head := list_del s.lru_list_head page
        page_hash_table := hashtable_remove s.pages s.page_hash_table page hash_function })

/-- `_lru_access_addr`: returns the pointer result and the new state. -/
def _lru_access_addr (addr : Nat) (s : State) : Nat × State :=
  match hashtable_get s.pages s.page_hash_table addr hash_function with
  | none => (addr, s)
  | some page =>
    (addr, { pages := s.pages
             lru_list_head := list_add (list_del s.lru_list_head page) page
             page_hash_table := s.page_hash_table })

/-! ## Observations and call sequences -/

/-- The identities (`pra_vaddr`) of the linked entries, read head to tail, as
`print_lru_list` walks them. -/
def listAddrs (s : State) : List Nat :=
  s.lru_list_head.map (fun p => (s.pages p).pra_vaddr)

/-- Index lookup of an identity, as the policy performs it. -/
def lookup (s : State) (addr : Nat) : Option Nat :=
  hashtable_get s.pages s.page_hash_table addr hash_function

/-- One call into the policy after `init`. -/
inductive Op where
  | map (mm : mm_struct) (addr : Nat) (page : Nat) (swap_in : Int)
  | access (addr : Nat)
  | victim (mm : mm_struct) (in_tick : Int)
deriving DecidableEq

/-- The state after one call. -/
def step (s : State) : Op → State
  | .map mm addr page swap_in => (_lru_map_swappable mm addr page swap_in s).2
  | .access addr => (_lru_access_addr addr s).2
  | .victim mm in_tick => (_lru_swap_out_victim mm in_tick s).2.2

/-- The call is a `select_victim`. -/
def isVictim : Op → Bool
  | .victim _ _ => true
  | _ => false

/-- The call is a `record_access` of identity `a`. -/
def recordsAddr (a : Nat) : Op → Bool
  | .map _ addr _ _ => addr == a
  | _ => false

/-- The state after a sequence of calls. -/
def run (s : State) (ops : List Op) : State := ops.foldl step s

/-- The host's side of the contract for the entry handed to `record_access`
(spec §3 lifecycle, §4.2 `push_front`: "entry must not already be linked"): the
page passed in is not linked, or it is linked under the very identity being
recorded.  Equivalently: the page is not currently tracked under a different
identity. -/
def entryOk (s : State) (addr page : Nat) : Prop :=
  page ∉ s.lru_list_head ∨ (s.pages page).pra_vaddr = addr

instance (s : State) (addr page : Nat) : Decidable (entryOk s addr page) := by
  unfold entryOk; exact inferInstance

/-- A call is admissible in a state. -/
def opOk (s : State) : Op → Prop
  | .map _ addr page _ => entryOk s addr page
  | .access _ => True
  | .victim _ _ => True

instance (s : State) (op : Op) : Decidable (opOk s op) := by
  cases op <;> (unfold opOk; exact inferInstance)

/-- Every call of the sequence is admissible in the state it is made in. -/
def opsOk (s : State) : List Op → Prop
  | [] => True
  | op :: rest => opOk s op ∧ opsOk (step s op) rest

instance opsOkDecidable : (s : State) → (ops : List Op) → Decidable (opsOk s ops)
  | _, [] => isTrue trivial
  | s, op :: rest =>
    have := opsOkDecidable (step s op) rest
    by unfold opsOk; exact inferInstance

/-- States reachable from `init` by admissible `record_access`, `touch` and
`select_victim` calls. -/
def Reachable (s : State) : Prop :=
  ∃ (mm : mm_struct) (s0 : State) (ops : List Op),
    opsOk (_lru_init_mm mm s0).2.2 ops ∧ s = run (_lru_init_mm mm s0).2.2 ops

/-! ## Invariants and the access log -/

/-- Consistency of the Index with the Recency List: the bucket count is the one
set by `init`, no identity is linked twice, a linked entry's hash key is its
address, and the chain of bucket `i` holds exactly the linked entries hashing to
`i`, each once. -/
structure Inv (s : State) : Prop where
  size_eq : s.page_hash_table.size = BUCKET_SIZE
  addrs_nodup : (listAddrs s).Nodup
  key_eq : ∀ p ∈ s.lru_list_head, (s.pages p).key = (s.pages p).pra_vaddr
  bucket_mem : ∀ i p, p ∈ s.page_hash_table.buckets i ↔
    (p ∈ s.lru_list_head ∧ i = hash_function (s.pages p).key % BUCKET_SIZE)
  bucket_nodup : ∀ i, (s.page_hash_table.buckets i).Nodup

/-- The access log kept beside a call sequence: a clock counting the calls made
so far and, for each tracked identity, the time of its last access. -/
structure Log where
  clock : Nat
  stamp : Nat → Option Nat

/-- The log right after `init`: nothing is tracked. -/
def Log.empty : Log := { clock := 0, stamp := fun _ => none }

/-- Update of the last-access time of one identity. -/
def setStamp (stamp : Nat → Option Nat) (a : Nat) (v : Option Nat) : Nat → Option Nat :=
  fun b => if b = a then v else stamp b

/-- The log after one call.  `record_access` stamps its identity; `touch` stamps
its identity only when it is tracked; `select_victim` forgets the identity of
the entry it handed back (`evicted`). -/
def logStep (evicted : Option Nat) (g : Log) : Op → Log
  | .map _ addr _ _ => { clock := g.clock + 1, stamp := setStamp g.stamp addr (some g.clock) }
  | .access addr =>
    { clock := g.clock + 1
      stamp := if (g.stamp addr).isSome then setStamp g.stamp addr (some g.clock) else g.stamp }
  | .victim _ _ =>
    { clock := g.clock + 1
      stamp := match evicted with
        | some v => setStamp g.stamp v none
        | none => g.stamp }

/-- The identity of the entry a `select_victim` call hands back, if any. -/
def evictedAddr (s : State) : Op → Option Nat
  | .victim mm in_tick =>
    (_lru_swap_out_victim mm in_tick s).2.1.map (fun p => (s.pages p).pra_vaddr)
  | _ => none

/-- The log after a sequence of calls made from state `s`. -/
def runLog (s : State) (g : Log) : List Op → Log
  | [] => g
  | op :: rest => runLog (step s op) (logStep (evictedAddr s op) g op) rest

/-- The log of a sequence of `record_access` and `touch` calls made right after
`init`; it depends on the calls alone. -/
def accessLog (ops : List Op) : Log := ops.foldl (logStep none) Log.empty

/-- Identity `a` was last accessed strictly later than identity `b`, both being
tracked. -/
def newer (g : Log) (a b : Nat) : Prop :=
  ∃ ta tb, g.stamp a = some ta ∧ g.stamp b = some tb ∧ tb < ta

/-- The list of identities agrees with the log: it holds exactly the tracked
identities, in strictly decreasing order of last access, and no stamp lies in
the future. -/
structure TInv (ids : List Nat) (g : Log) : Prop where
  tracked : ∀ a, (g.stamp a).isSome ↔ a ∈ ids
  sorted : ids.Pairwise (newer g)
  bound : ∀ a t, g.stamp a = some t → t < g.clock

/-! ## Fixtures of the self-check -/

/-- A state before `init`: every page zeroed, nothing linked. -/
def bootState : State :=
  { pages := fun _ => { pra_vaddr := 0, key := 0 }
    lru_list_head := []
    page_hash_table := { size := 0, buckets := fun _ => [] } }

/-- The address space handed to the policy. -/
def checkMm : mm_struct := { sm_priv := false }

/-- The faults that populate the list before `_lru_check_swap` runs: pages 1 to 4
are mapped at `0x1000` to `0x4000` in this order. -/
def fillOps : List Op :=
  [.map checkMm 0x1000 1 0, .map checkMm 0x2000 2 0, .map checkMm 0x3000 3 0,
   .map checkMm 0x4000 4 0]

/-- The state `_lru_check_swap` starts from: list `0x4000 0x3000 0x2000 0x1000`. -/
def checkStart : State := run (_lru_init_mm checkMm bootState).2.2 fillOps

/-! ## The remaining callbacks, the self-check oracle and the host -/

/-- `_lru_init`. -/
def _lru_init : Int := 0

/-- `_lru_set_unswappable`: returns the status and the state. -/
def _lru_set_unswappable (mm : mm_struct) (addr : Nat) (s : State) : Int × State :=
  let _ := mm
  let _ := addr
  (0, s)

/-- `_lru_tick_event`: returns the status and the state. -/
def _lru_tick_event (mm : mm_struct) (s : State) : Int × State :=
  let _ := mm
  (0, s)

/-- What stops a `CHECK_LIST` walk: the `assert` fires, or `_arr[_idx]` is read
with `_idx` past the four elements of `addr_array`. -/
inductive CheckStop where
  | assert_failed
  | out_of_bounds
deriving DecidableEq

/-- Modelled from the spec: the `list_for_each` macro of `list.h` (absent from
the sources).  Spec §3: the list is read from the node after the sentinel to the
node before it; the walk ends at the sentinel, or at the first body that stops. -/
def list_for_each {σ : Type} (l : List Nat) (body : Nat → σ → Except CheckStop σ) (st : σ) :
    Except CheckStop σ :=
  match l with
  | [] => .ok st
  | pos :: rest =>
    match body pos st with
    | .error e => .error e
    | .ok st1 => list_for_each rest body st1

/-- `CHECK_LIST(pos, &lru_list_head, addr_array, idx, addr0, addr1, addr2, addr3)`:
the result is the final `idx` when the walk completes. -/
def CHECK_LIST (s : State) (addr0 addr1 addr2 addr3 : Nat) : Except CheckStop Nat :=
  let arr := [addr0, addr1, addr2, addr3]
  list_for_each s.lru_list_head
    (fun pos idx =>
      match arr.get? idx with
      | none => .error .out_of_bounds
      | some expected =>
        if (s.pages pos).pra_vaddr = expected then .ok (idx + 1) else .error .assert_failed)
    0

/-- The check passes: the walk completes, no assertion fires and no read goes
past the array. -/
def checkPasses (s : State) (addr0 addr1 addr2 addr3 : Nat) : Prop :=
  ∃ idx, CHECK_LIST s addr0 addr1 addr2 addr3 = .ok idx

/-- Modelled from the spec: the host's fault path (`do_pgfault` and `swap.c`,
absent from the sources).  Spec §8: the new entry is inserted at the head by
`record_access` and the host then triggers one `select_victim`, which brings the
tracked set back to four.  Returns the victim and the new state. -/
def host_fault (mm : mm_struct) (addr page : Nat) (s : State) : Option Nat × State :=
  let s1 := (_lru_map_swappable mm addr page 1 s).2
  let r := _lru_swap_out_victim mm 0 s1
  (r.2.1, r.2.2)

/-- One access of `_lru_check_swap`: `_lru_access_addr` is called, and the write
through the returned pointer faults when the address is not tracked; `page` is
the entry the host hands over in that case. -/
def check_access (mm : mm_struct) (addr page : Nat) (s : State) : Option Nat × State :=
  match lookup s addr with
  | some _ => (none, (_lru_access_addr addr s).2)
  | none => host_fault mm addr page (_lru_access_addr addr s).2

/-- The list after each access of a script, with the identity of the victim of
the fault, if the access faulted. -/
def check_trace (mm : mm_struct) : State → List (Nat × Nat) → List (List Nat × Option Nat)
  | _, [] => []
  | s, (addr, page) :: rest =>
    (listAddrs (check_access mm addr page s).2,
      (check_access mm addr page s).1.map
        (fun p => ((check_access mm addr page s).2.pages p).pra_vaddr)) ::
      check_trace mm (check_access mm addr page s).2 rest

/-- The entries the host hands over are admissible: at each fault the entry is
not linked. -/
def checkOk (mm : mm_struct) : State → List (Nat × Nat) → Prop
  | _, [] => True
  | s, (addr, page) :: rest =>
    (lookup s addr = none → page ∉ s.lru_list_head) ∧
      checkOk mm (check_access mm addr page s).2 rest

instance checkOkDecidable (mm : mm_struct) :
    (s : State) → (script : List (Nat × Nat)) → Decidable (checkOk mm s script)
  | _, [] => isTrue trivial
  | s, (addr, page) :: rest =>
    have := checkOkDecidable mm (check_access mm addr page s).2 rest
    by unfold checkOk; exact inferInstance

/-- The accesses of `_lru_check_swap` in order; `p1` to `p4` are the entries the
host hands over at the four faults. -/
def checkScript (p1 p2 p3 p4 : Nat) : List (Nat × Nat) :=
  [(0x3000, 0), (0x1000, 0), (0x4000, 0), (0x2000, 0), (0x5000, p1), (0x2000, 0),
   (0x1000, 0), (0x3000, p2), (0x4000, p3), (0x5000, p4), (0x1000, 0)]

/-- The move-to-front-or-fault step on a list of identities. -/
def accessAddrs (a : Nat) (l : List Nat) : List Nat × Option Nat :=
  if a ∈ l then (a :: l.erase a, none) else ((a :: l).dropLast, (a :: l).getLast?)

/-- The lists of identities and the victims produced by a sequence of accesses. -/
def traceAddrs : List Nat → List Nat → List (List Nat × Option Nat)
  | _, [] => []
  | l, a :: rest => accessAddrs a l :: traceAddrs (accessAddrs a l).1 rest

/-- The results of `n` consecutive `select_victim` calls and the final state. -/
def swap_out_n (mm : mm_struct) (in_tick : Int) : Nat → State → List (Option Nat) × State
  | 0, s => ([], s)
  | n + 1, s =>
    ((_lru_swap_out_victim mm in_tick s).2.1 ::
        (swap_out_n mm in_tick n (_lru_swap_out_victim mm in_tick s).2.2).1,
      (swap_out_n mm in_tick n (_lru_swap_out_victim mm in_tick s).2.2).2)

/-- `select_victim` followed by `record_access`: the victim and the final state. -/
def evict_then_insert (mm : mm_struct) (addr page : Nat) (swap_in in_tick : Int) (s : State) :
    Option Nat × State :=
  ((_lru_swap_out_victim mm in_tick s).2.1,
    (_lru_map_swappable mm addr page swap_in (_lru_swap_out_victim mm in_tick s).2.2).2)

/-- `record_access` followed by `select_victim`: the victim and the final state. -/
def insert_then_evict (mm : mm_struct) (addr page : Nat) (swap_in in_tick : Int) (s : State) :
    Option Nat × State :=
  ((_lru_swap_out_victim mm in_tick (_lru_map_swappable mm addr page swap_in s).2).2.1,
    (_lru_swap_out_victim mm in_tick (_lru_map_swappable mm addr page swap_in s).2).2.2)

/-! ## The Index and the Recency List stay consistent -/

theorem map_erase_of_nodup {f : Nat → Nat} :
    ∀ (l : List Nat) (p : Nat), (l.map f).Nodup → p ∈ l →
      (l.erase p).map f = (l.map f).erase (f p)
  | [], _, _, h => by simp at h
  | x :: l, p, hnd, hp => by
    rw [List.map_cons, List.nodup_cons] at hnd
    by_cases hx : x = p
    · subst hx; simp
    · have hp' : p ∈ l := by
        rcases List.mem_cons.1 hp with h | h
        · exact absurd h.symm hx
        · exact h
      have hfx : f x ≠ f p := fun h => hnd.1 (h ▸ List.mem_map_of_mem f hp')
      rw [List.erase_cons_tail (by simpa using hx), List.map_cons, List.map_cons,
        List.erase_cons_tail (by simpa using hfx), map_erase_of_nodup l p hnd.2 hp']

theorem inj_of_addrs_nodup {s : State} (h : (listAddrs s).Nodup) {p q : Nat}
    (hp : p ∈ s.lru_list_head) (hq : q ∈ s.lru_list_head)
    (e : (s.pages p).pra_vaddr = (s.pages q).pra_vaddr) : p = q :=
  List.inj_on_of_nodup_map h hp hq e

theorem list_nodup_of_inv {s : State} (h : Inv s) : s.lru_list_head.Nodup :=
  List.Nodup.of_map _ h.addrs_nodup

theorem lookup_eq_some_iff {s : State} (h : Inv s) (a p : Nat) :
    lookup s a = some p ↔ p ∈ s.lru_list_head ∧ (s.pages p).pra_vaddr = a := by
  unfold lookup hashtable_get
  rw [h.size_eq]
  constructor
  · intro hf
    have hm := List.mem_of_find?_eq_some hf
    have hk := List.find?_some hf
    have hl := ((h.bucket_mem _ _).1 hm).1
    refine ⟨hl, ?_⟩
    rw [← h.key_eq p hl]; simpa using hk
  · rintro ⟨hl, ha⟩
    have hk : (s.pages p).key = a := by rw [h.key_eq p hl, ha]
    have hm : p ∈ s.page_hash_table.buckets (hash_function a % BUCKET_SIZE) :=
      (h.bucket_mem _ _).2 ⟨hl, by rw [hk]⟩
    cases hf : List.find? (fun e => (s.pages e).key == a)
        (s.page_hash_table.buckets (hash_function a % BUCKET_SIZE)) with
    | none =>
      have := List.find?_eq_none.1 hf p hm
      simp [hk] at this
    | some q =>
      have hqm := List.mem_of_find?_eq_some hf
      have hqk := List.find?_some hf
      have hql := ((h.bucket_mem _ _).1 hqm).1
      have hqa : (s.pages q).pra_vaddr = a := by
        rw [← h.key_eq q hql]; simpa using hqk
      rw [inj_of_addrs_nodup h.addrs_nodup hql hl (hqa.trans ha.symm)]

theorem lookup_isSome_iff {s : State} (h : Inv s) (a : Nat) :
    (lookup s a).isSome ↔ a ∈ listAddrs s := by
  rw [Option.isSome_iff_exists]
  simp only [lookup_eq_some_iff h, listAddrs, List.mem_map]

theorem lookup_eq_none_iff {s : State} (h : Inv s) (a : Nat) :
    lookup s a = none ↔ a ∉ listAddrs s := by
  rw [← lookup_isSome_iff h a]; cases lookup s a <;> simp

theorem inv_init (mm : mm_struct) (s : State) : Inv (_lru_init_mm mm s).2.2 where
  size_eq := rfl
  addrs_nodup := by simp [_lru_init_mm, listAddrs, list_init]
  key_eq := by simp [_lru_init_mm, list_init]
  bucket_mem := by simp [_lru_init_mm, list_init, hashtable_init]
  bucket_nodup := by simp [_lru_init_mm, hashtable_init]

theorem store_eq_of_entryOk {s : State} (h : Inv s) {a page : Nat} (hok : entryOk s a page) :
    ∀ q ∈ s.lru_list_head, store s.pages page { pra_vaddr := a, key := a } q = s.pages q := by
  intro q hq
  unfold store
  split
  · next hqp =>
    subst hqp
    rcases hok with hn | hv
    · exact absurd hq hn
    · have hk := h.key_eq q hq
      rw [hv] at hk
      cases hpq : s.pages q with
      | mk v k => rw [hpq] at hv hk; simp only at hv hk; rw [hv, hk]
  · rfl

theorem listAddrs_congr {s : State} {pages : Nat → Page}
    (hp : ∀ q ∈ s.lru_list_head, pages q = s.pages q) :
    listAddrs { s with pages := pages } = listAddrs s := by
  unfold listAddrs
  apply List.map_congr_left
  intro q hq
  simp only [hp q hq]

theorem inv_congr {s : State} (h : Inv s) {pages : Nat → Page}
    (hp : ∀ q ∈ s.lru_list_head, pages q = s.pages q) :
    Inv { s with pages := pages } where
  size_eq := h.size_eq
  addrs_nodup := by rw [listAddrs_congr hp]; exact h.addrs_nodup
  key_eq := by
    intro p hm
    show (pages p).key = (pages p).pra_vaddr
    rw [hp p hm]; exact h.key_eq p hm
  bucket_mem := by
    intro i p
    show p ∈ s.page_hash_table.buckets i ↔
      (p ∈ s.lru_list_head ∧ i = hash_function (pages p).key % BUCKET_SIZE)
    rw [h.bucket_mem]
    constructor
    · rintro ⟨hm, hi⟩; exact ⟨hm, by rw [hp p hm]; exact hi⟩
    · rintro ⟨hm, hi⟩; exact ⟨hm, by rw [← hp p hm]; exact hi⟩
  bucket_nodup := h.bucket_nodup

theorem find?_congr_of_mem {f g : Nat → Bool} :
    ∀ (l : List Nat), (∀ x ∈ l, f x = g x) → l.find? f = l.find? g
  | [], _ => rfl
  | x :: l, h => by
    rw [List.find?_cons, List.find?_cons, h x (List.mem_cons_self _ _),
      find?_congr_of_mem l (fun y hy => h y (List.mem_cons_of_mem _ hy))]

theorem lookup_congr {s : State} (h : Inv s) {pages : Nat → Page}
    (hp : ∀ q ∈ s.lru_list_head, pages q = s.pages q) (a : Nat) :
    lookup { s with pages := pages } a = lookup s a := by
  unfold lookup hashtable_get
  apply find?_congr_of_mem
  intro q hq
  show ((pages q).key == a) = ((s.pages q).key == a)
  rw [hp q ((h.bucket_mem _ _).1 hq).1]

theorem mem_moveFront {l : List Nat} {p : Nat} (hp : p ∈ l) (q : Nat) :
    q ∈ p :: l.erase p ↔ q ∈ l := by
  constructor
  · intro hq
    rcases List.mem_cons.1 hq with h | h
    · exact h ▸ hp
    · exact List.mem_of_mem_erase h
  · intro hq
    by_cases e : q = p
    · exact e ▸ List.mem_cons_self _ _
    · exact List.mem_cons_of_mem _ ((List.mem_erase_of_ne e).2 hq)

theorem listAddrs_moveFront {s : State} (h : Inv s) {p : Nat} (hp : p ∈ s.lru_list_head) :
    listAddrs { s with lru_list_head := list_add (list_del s.lru_list_head p) p } =
      (s.pages p).pra_vaddr :: (listAddrs s).erase (s.pages p).pra_vaddr := by
  unfold listAddrs list_add list_del
  simp only [List.map_cons]
  rw [map_erase_of_nodup (f := fun p => (s.pages p).pra_vaddr) _ _ h.addrs_nodup hp]

theorem inv_moveFront {s : State} (h : Inv s) {p : Nat} (hp : p ∈ s.lru_list_head) :
    Inv { s with lru_list_head := list_add (list_del s.lru_list_head p) p } where
  size_eq := h.size_eq
  addrs_nodup := by
    rw [listAddrs_moveFront h hp, List.nodup_cons]
    exact ⟨h.addrs_nodup.not_mem_erase, h.addrs_nodup.erase _⟩
  key_eq := by
    intro q hq
    exact h.key_eq q ((mem_moveFront hp q).1 hq)
  bucket_mem := by
    intro i q
    show q ∈ s.page_hash_table.buckets i ↔ (q ∈ p :: s.lru_list_head.erase p ∧ _)
    rw [mem_moveFront hp q]; exact h.bucket_mem i q
  bucket_nodup := h.bucket_nodup

theorem inv_insert {s : State} (h : Inv s) {p : Nat} (hp : p ∉ s.lru_list_head)
    (hk : (s.pages p).key = (s.pages p).pra_vaddr)
    (ha : (s.pages p).pra_vaddr ∉ listAddrs s) :
    Inv { s with
      lru_list_head := list_add s.lru_list_head p
      page_hash_table := hashtable_insert s.pages s.page_hash_table p hash_function } where
  size_eq := h.size_eq
  addrs_nodup := by
    show (listAddrs s |> List.cons (s.pages p).pra_vaddr).Nodup
    exact List.nodup_cons.2 ⟨ha, h.addrs_nodup⟩
  key_eq := by
    intro q hq
    rcases List.mem_cons.1 hq with e | hq
    · rw [e]; exact hk
    · exact h.key_eq q hq
  bucket_mem := by
    intro i q
    have hpb : ∀ j, p ∉ s.page_hash_table.buckets j := fun j hj => hp ((h.bucket_mem j p).1 hj).1
    simp only [hashtable_insert, setBucket, list_add, h.size_eq, List.mem_cons]
    split
    · next hi =>
      subst hi
      rw [List.mem_append, List.mem_singleton, h.bucket_mem]
      constructor
      · rintro (⟨hm, he⟩ | e)
        · exact ⟨Or.inr hm, he⟩
        · exact ⟨Or.inl e, by rw [e]⟩
      · rintro ⟨e | hm, he⟩
        · exact Or.inr e
        · exact Or.inl ⟨hm, he⟩
    · next hi =>
      rw [h.bucket_mem]
      constructor
      · rintro ⟨hm, he⟩; exact ⟨Or.inr hm, he⟩
      · rintro ⟨e | hm, he⟩
        · exact absurd (by rw [← e]; exact he) hi
        · exact ⟨hm, he⟩
  bucket_nodup := by
    intro i
    have hpb : ∀ j, p ∉ s.page_hash_table.buckets j := fun j hj => hp ((h.bucket_mem j p).1 hj).1
    simp only [hashtable_insert, setBucket]
    split
    · exact List.Nodup.append (h.bucket_nodup _) (List.nodup_singleton p)
        (by simpa using hpb _)
    · exact h.bucket_nodup i

theorem listAddrs_remove {s : State} (h : Inv s) {p : Nat} (hp : p ∈ s.lru_list_head) :
    listAddrs { s with
      lru_list_head := list_del s.lru_list_head p
      page_hash_table := hashtable_remove s.pages s.page_hash_table p hash_function } =
      (listAddrs s).erase (s.pages p).pra_vaddr := by
  unfold listAddrs list_del
  exact map_erase_of_nodup (f := fun p => (s.pages p).pra_vaddr) _ _ h.addrs_nodup hp

theorem inv_remove {s : State} (h : Inv s) {p : Nat} (hp : p ∈ s.lru_list_head) :
    Inv { s with
      lru_list_head := list_del s.lru_list_head p
      page_hash_table := hashtable_remove s.pages s.page_hash_table p hash_function } where
  size_eq := h.size_eq
  addrs_nodup := by rw [listAddrs_remove h hp]; exact h.addrs_nodup.erase _
  key_eq := by
    intro q hq
    exact h.key_eq q (List.mem_of_mem_erase hq)
  bucket_mem := by
    intro i q
    have hnd := list_nodup_of_inv h
    simp only [hashtable_remove, setBucket, list_del, h.size_eq]
    rw [hnd.mem_erase_iff]
    split
    · next hi =>
      subst hi
      rw [(h.bucket_nodup _).mem_erase_iff, h.bucket_mem]
      tauto
    · next hi =>
      rw [h.bucket_mem]
      constructor
      · rintro ⟨hm, he⟩
        refine ⟨⟨?_, hm⟩, he⟩
        intro e
        rw [e] at he
        exact hi he
      · rintro ⟨⟨_, hm⟩, he⟩; exact ⟨hm, he⟩
  bucket_nodup := by
    intro i
    simp only [hashtable_remove, setBucket]
    split
    · exact (h.bucket_nodup _).erase _
    · exact h.bucket_nodup i

theorem erase_getLast {l : List Nat} (hnd : l.Nodup) {p : Nat} (hl : l.getLast? = some p) :
    l.erase p = l.dropLast := by
  have hd := List.dropLast_append_getLast? p hl
  have hnd' := hnd
  rw [← hd] at hnd'
  have hp : p ∉ l.dropLast := by
    intro hm
    have := (List.nodup_append.1 hnd').2.2
    exact this hm (List.mem_singleton_self p)
  conv_lhs => rw [← hd]
  rw [List.erase_append_right _ hp]
  simp

theorem map_hit {s : State} (h : Inv s) (mm : mm_struct) {a page E : Nat} (si : Int)
    (hok : entryOk s a page) (hE : lookup s a = some E) :
    _lru_map_swappable mm a page si s =
      (0, { pages := store s.pages page { pra_vaddr := a, key := a }
            lru_list_head := list_add (list_del s.lru_list_head E) E
            page_hash_table := s.page_hash_table }) := by
  have hl := lookup_congr h (store_eq_of_entryOk h hok) a
  rw [hE] at hl
  unfold lookup at hl
  simp only [_lru_map_swappable, hl]

theorem map_miss {s : State} (h : Inv s) (mm : mm_struct) {a page : Nat} (si : Int)
    (hok : entryOk s a page) (hE : lookup s a = none) :
    _lru_map_swappable mm a page si s =
      (0, { pages := store s.pages page { pra_vaddr := a, key := a }
            lru_list_head := list_add s.lru_list_head page
            page_hash_table :=
              hashtable_insert (store s.pages page { pra_vaddr := a, key := a })
                s.page_hash_table page hash_function }) := by
  have hl := lookup_congr h (store_eq_of_entryOk h hok) a
  rw [hE] at hl
  unfold lookup at hl
  simp only [_lru_map_swappable, hl]

theorem not_mem_of_miss {s : State} (h : Inv s) {a page : Nat}
    (hok : entryOk s a page) (hE : lookup s a = none) : page ∉ s.lru_list_head := by
  intro hm
  rcases hok with hn | hv
  · exact hn hm
  · have := (lookup_eq_some_iff h a page).2 ⟨hm, hv⟩
    rw [hE] at this; cases this

theorem inv_map {s : State} (h : Inv s) (mm : mm_struct) {a page : Nat} (si : Int)
    (hok : entryOk s a page) : Inv (_lru_map_swappable mm a page si s).2 := by
  have hst := store_eq_of_entryOk h hok
  have h1 := inv_congr h hst
  cases hE : lookup s a with
  | some E =>
    rw [map_hit h mm si hok hE]
    exact inv_moveFront h1 ((lookup_eq_some_iff h a E).1 hE).1
  | none =>
    rw [map_miss h mm si hok hE]
    have hp := not_mem_of_miss h hok hE
    refine inv_insert h1 hp ?_ ?_
    · simp [store]
    · rw [listAddrs_congr hst]
      simpa [store] using (lookup_eq_none_iff h a).1 hE

theorem addrs_map {s : State} (h : Inv s) (mm : mm_struct) {a page : Nat} (si : Int)
    (hok : entryOk s a page) :
    listAddrs (_lru_map_swappable mm a page si s).2 = a :: (listAddrs s).erase a := by
  have hst := store_eq_of_entryOk h hok
  have h1 := inv_congr h hst
  cases hE : lookup s a with
  | some E =>
    rw [map_hit h mm si hok hE]
    have hEm := (lookup_eq_some_iff h a E).1 hE
    have := listAddrs_moveFront h1 (p := E) hEm.1
    rw [listAddrs_congr hst] at this
    have hv : (store s.pages page { pra_vaddr := a, key := a } E).pra_vaddr = a := by
      rw [hst E hEm.1]; exact hEm.2
    simp only [hv] at this
    exact this
  | none =>
    rw [map_miss h mm si hok hE]
    rw [List.erase_of_not_mem ((lookup_eq_none_iff h a).1 hE)]
    have := listAddrs_congr (s := s) hst
    simp only [listAddrs, list_add, List.map_cons] at this ⊢
    rw [this]
    simp [store]

theorem access_hit {s : State} {a E : Nat} (hE : lookup s a = some E) :
    _lru_access_addr a s =
      (a, { pages := s.pages
            lru_list_head := list_add (list_del s.lru_list_head E) E
            page_hash_table := s.page_hash_table }) := by
  unfold lookup at hE
  simp only [_lru_access_addr, hE]

theorem access_miss {s : State} {a : Nat} (hE : lookup s a = none) :
    _lru_access_addr a s = (a, s) := by
  unfold lookup at hE
  simp only [_lru_access_addr, hE]

theorem inv_access {s : State} (h : Inv s) (a : Nat) : Inv (_lru_access_addr a s).2 := by
  cases hE : lookup s a with
  | some E =>
    rw [access_hit hE]
    exact inv_moveFront h ((lookup_eq_some_iff h a E).1 hE).1
  | none => rw [access_miss hE]; exact h

theorem addrs_access_hit {s : State} (h : Inv s) {a : Nat} (ha : a ∈ listAddrs s) :
    listAddrs (_lru_access_addr a s).2 = a :: (listAddrs s).erase a := by
  cases hE : lookup s a with
  | some E =>
    rw [access_hit hE]
    have hEm := (lookup_eq_some_iff h a E).1 hE
    have := listAddrs_moveFront h (p := E) hEm.1
    rw [hEm.2] at this
    exact this
  | none => exact absurd ha ((lookup_eq_none_iff h a).1 hE)

theorem addrs_access_miss {s : State} (h : Inv s) {a : Nat} (ha : a ∉ listAddrs s) :
    _lru_access_addr a s = (a, s) :=
  access_miss ((lookup_eq_none_iff h a).2 ha)

theorem victim_some {s : State} (mm : mm_struct) (t : Int) {p : Nat}
    (hp : s.lru_list_head.getLast? = some p) :
    _lru_swap_out_victim mm t s =
      (0, some p,
        { pages := s.pages
          lru_list_head := list_del s.lru_list_head p
          page_hash_table := hashtable_remove s.pages s.page_hash_table p hash_function }) := by
  simp only [_lru_swap_out_victim, list_prev, hp]

theorem victim_none {s : State} (mm : mm_struct) (t : Int)
    (hp : s.lru_list_head = []) : _lru_swap_out_victim mm t s = (0, none, s) := by
  simp only [_lru_swap_out_victim, list_prev, hp, List.getLast?_nil]

theorem inv_victim {s : State} (h : Inv s) (mm : mm_struct) (t : Int) :
    Inv (_lru_swap_out_victim mm t s).2.2 := by
  cases hp : s.lru_list_head.getLast? with
  | none => rw [victim_none mm t (List.getLast?_eq_none_iff.1 hp)]; exact h
  | some p =>
    rw [victim_some mm t hp]
    exact inv_remove h (List.mem_of_getLast?_eq_some hp)

theorem addrs_victim {s : State} (h : Inv s) (mm : mm_struct) (t : Int) :
    listAddrs (_lru_swap_out_victim mm t s).2.2 = (listAddrs s).dropLast := by
  cases hp : s.lru_list_head.getLast? with
  | none =>
    have := List.getLast?_eq_none_iff.1 hp
    rw [victim_none mm t this]
    simp [listAddrs, this]
  | some p =>
    rw [victim_some mm t hp]
    simp only [listAddrs, list_del]
    rw [erase_getLast (list_nodup_of_inv h) hp, List.map_dropLast]

theorem victim_addr {s : State} (mm : mm_struct) (t : Int) :
    (_lru_swap_out_victim mm t s).2.1.map (fun p => (s.pages p).pra_vaddr) =
      (listAddrs s).getLast? := by
  cases hp : s.lru_list_head.getLast? with
  | none =>
    have := List.getLast?_eq_none_iff.1 hp
    rw [victim_none mm t this]
    simp [listAddrs, this]
  | some p =>
    rw [victim_some mm t hp]
    simp [listAddrs, List.getLast?_map, hp]

theorem inv_step {s : State} (h : Inv s) {op : Op} (hok : opOk s op) : Inv (step s op) := by
  cases op with
  | map mm a page si => exact inv_map h mm si hok
  | access a => exact inv_access h a
  | victim mm t => exact inv_victim h mm t

theorem inv_run : ∀ (ops : List Op) {s : State}, Inv s → opsOk s ops → Inv (run s ops)
  | [], _, h, _ => h
  | op :: rest, s, h, hok => by
    show Inv (run (step s op) rest)
    exact inv_run rest (inv_step h hok.1) hok.2

theorem inv_of_reachable {s : State} (h : Reachable s) : Inv s := by
  obtain ⟨mm, s0, ops, hok, rfl⟩ := h
  exact inv_run ops (inv_init mm s0) hok

/-! ## The list is ordered by last access -/

theorem tinv_empty : TInv [] Log.empty where
  tracked := by simp [Log.empty]
  sorted := List.Pairwise.nil
  bound := by simp [Log.empty]

theorem tinv_front {ids : List Nat} {g : Log} (h : TInv ids g) (hnd : ids.Nodup) (a : Nat) :
    TInv (a :: ids.erase a)
      { clock := g.clock + 1, stamp := setStamp g.stamp a (some g.clock) } where
  tracked := by
    intro b
    simp only [setStamp]
    split
    · next e => simp [e]
    · next e =>
      rw [h.tracked, List.mem_cons, hnd.mem_erase_iff]
      simp [e]
  sorted := by
    rw [List.pairwise_cons]
    constructor
    · intro b hb
      have hb' := (hnd.mem_erase_iff).1 hb
      obtain ⟨tb, htb⟩ := Option.isSome_iff_exists.1 ((h.tracked b).2 hb'.2)
      exact ⟨g.clock, tb, by simp [setStamp], by simp [setStamp, hb'.1, htb], h.bound b tb htb⟩
    · refine List.Pairwise.imp_of_mem ?_ (h.sorted.sublist (List.erase_sublist a ids))
      intro b c hb hc hbc
      have hb' := (hnd.mem_erase_iff).1 hb
      have hc' := (hnd.mem_erase_iff).1 hc
      obtain ⟨tb, tc, h1, h2, h3⟩ := hbc
      exact ⟨tb, tc, by simp [setStamp, hb'.1, h1], by simp [setStamp, hc'.1, h2], h3⟩
  bound := by
    intro b t
    simp only [setStamp]
    split
    · intro e; cases e; exact Nat.lt_succ_self _
    · intro e; exact Nat.lt_succ_of_lt (h.bound b t e)

theorem tinv_tick {ids : List Nat} {g : Log} (h : TInv ids g) :
    TInv ids { clock := g.clock + 1, stamp := g.stamp } where
  tracked := h.tracked
  sorted := by
    refine List.Pairwise.imp ?_ h.sorted
    intro b c hbc; exact hbc
  bound := fun a t e => Nat.lt_succ_of_lt (h.bound a t e)

theorem tinv_dropLast {ids : List Nat} {g : Log} (h : TInv ids g) (hnd : ids.Nodup) {v : Nat}
    (hv : ids.getLast? = some v) :
    TInv ids.dropLast { clock := g.clock + 1, stamp := setStamp g.stamp v none } := by
  have hd : ids.erase v = ids.dropLast := erase_getLast hnd hv
  rw [← hd]
  exact
    { tracked := by
        intro b
        simp only [setStamp]
        split
        · next e => subst e; simpa using hnd.not_mem_erase
        · next e => rw [h.tracked, hnd.mem_erase_iff]; simp [e]
      sorted := by
        refine List.Pairwise.imp_of_mem ?_ (h.sorted.sublist (List.erase_sublist v ids))
        intro b c hb hc hbc
        have hb' := (hnd.mem_erase_iff).1 hb
        have hc' := (hnd.mem_erase_iff).1 hc
        obtain ⟨tb, tc, h1, h2, h3⟩ := hbc
        exact ⟨tb, tc, by simp [setStamp, hb'.1, h1], by simp [setStamp, hc'.1, h2], h3⟩
      bound := by
        intro b t
        simp only [setStamp]
        split
        · intro e; cases e
        · intro e; exact Nat.lt_succ_of_lt (h.bound b t e) }

theorem tinv_step {s : State} {g : Log} (h : Inv s) (ht : TInv (listAddrs s) g) {op : Op}
    (hok : opOk s op) :
    TInv (listAddrs (step s op)) (logStep (evictedAddr s op) g op) := by
  cases op with
  | map mm a page si =>
    show TInv (listAddrs (_lru_map_swappable mm a page si s).2) _
    rw [addrs_map h mm si hok]
    exact tinv_front ht h.addrs_nodup a
  | access a =>
    show TInv (listAddrs (_lru_access_addr a s).2) _
    by_cases ha : a ∈ listAddrs s
    · rw [addrs_access_hit h ha]
      have := tinv_front ht h.addrs_nodup a
      simpa [logStep, (ht.tracked a).2 ha] using this
    · rw [addrs_access_miss h ha]
      have hs : (g.stamp a).isSome = false := by
        cases hh : (g.stamp a).isSome
        · rfl
        · exact absurd ((ht.tracked a).1 hh) ha
      have := tinv_tick ht
      simpa [logStep, hs] using this
  | victim mm t =>
    show TInv (listAddrs (_lru_swap_out_victim mm t s).2.2) _
    rw [addrs_victim h mm t]
    simp only [logStep, evictedAddr, victim_addr]
    cases hv : (listAddrs s).getLast? with
    | none =>
      rw [List.getLast?_eq_none_iff.1 hv] at ht ⊢
      exact tinv_tick ht
    | some v => exact tinv_dropLast ht h.addrs_nodup hv

theorem tinv_run : ∀ (ops : List Op) {s : State} {g : Log}, Inv s → TInv (listAddrs s) g →
    opsOk s ops → TInv (listAddrs (run s ops)) (runLog s g ops)
  | [], _, _, _, ht, _ => ht
  | op :: rest, s, g, h, ht, hok => by
    show TInv (listAddrs (run (step s op) rest)) (runLog (step s op) _ rest)
    exact tinv_run rest (inv_step h hok.1) (tinv_step h ht hok.1) hok.2

theorem runLog_eq_foldl : ∀ (ops : List Op) (s : State) (g : Log),
    (∀ op ∈ ops, isVictim op = false) → runLog s g ops = ops.foldl (logStep none) g
  | [], _, _, _ => rfl
  | op :: rest, s, g, h => by
    have he : evictedAddr s op = none := by
      cases op with
      | map _ _ _ _ => rfl
      | access _ => rfl
      | victim mm t => exact absurd (h _ (List.mem_cons_self _ _)) (by simp [isVictim])
    show runLog (step s op) (logStep (evictedAddr s op) g op) rest = _
    rw [he, runLog_eq_foldl rest _ _ (fun o ho => h o (List.mem_cons_of_mem _ ho))]
    rfl

theorem newer_asymm {g : Log} {a b : Nat} (h1 : newer g a b) (h2 : newer g b a) : False := by
  obtain ⟨ta, tb, e1, e2, l1⟩ := h1
  obtain ⟨tb', ta', e3, e4, l2⟩ := h2
  rw [e1] at e4; rw [e2] at e3
  cases e3; cases e4
  omega

theorem newer_trans {g : Log} {a b c : Nat} (h1 : newer g a b) (h2 : newer g b c) :
    newer g a c := by
  obtain ⟨ta, tb, e1, e2, l1⟩ := h1
  obtain ⟨tb', tc, e3, e4, l2⟩ := h2
  rw [e2] at e3; cases e3
  exact ⟨ta, tc, e1, e4, by omega⟩

theorem sorted_unique {g : Log} {l1 l2 : List Nat} (hm : ∀ a, a ∈ l1 ↔ a ∈ l2)
    (h1 : l1.Pairwise (newer g)) (h2 : l2.Pairwise (newer g)) : l1 = l2 := by
  have hirr : ∀ a, ¬ newer g a a := fun a h => newer_asymm h h
  have hne : ∀ {a b : Nat}, newer g a b → a ≠ b := by
    intro a b h e
    subst e
    exact hirr a h
  have n1 : l1.Nodup := h1.imp hne
  have n2 : l2.Nodup := h2.imp hne
  have hp : l1.Perm l2 := (List.perm_ext_iff_of_nodup n1 n2).2 hm
  haveI : IsAntisymm Nat (newer g) := ⟨fun a b x y => (newer_asymm x y).elim⟩
  exact List.eq_of_perm_of_sorted hp h1 h2

/-! ## Call sequences -/

theorem run_append (s : State) (ops1 ops2 : List Op) :
    run s (ops1 ++ ops2) = run (run s ops1) ops2 := by
  simp [run, List.foldl_append]

theorem opsOk_append : ∀ (ops1 ops2 : List Op) (s : State),
    opsOk s (ops1 ++ ops2) ↔ opsOk s ops1 ∧ opsOk (run s ops1) ops2
  | [], _, _ => by simp [opsOk, run]
  | op :: rest, ops2, s => by
    show (opOk s op ∧ opsOk (step s op) (rest ++ ops2)) ↔
      (opOk s op ∧ opsOk (step s op) rest) ∧ opsOk (run (step s op) rest) ops2
    rw [opsOk_append rest ops2 (step s op), and_assoc]

theorem mem_addrs_step_map {a : Nat} {s : State} (h : Inv s) {op : Op}
    (hop : recordsAddr a op = true) (hok : opOk s op) : a ∈ listAddrs (step s op) := by
  cases op with
  | map mm b page si =>
    have e : b = a := by simpa [recordsAddr] using hop
    subst e
    show b ∈ listAddrs (_lru_map_swappable mm b page si s).2
    rw [addrs_map h mm si hok]
    exact List.mem_cons_self _ _
  | access b => simp [recordsAddr] at hop
  | victim mm t => simp [recordsAddr] at hop

theorem mem_addrs_run_map {a : Nat} : ∀ (ops : List Op) {s : State}, Inv s →
    a ∈ listAddrs s → (∀ op ∈ ops, recordsAddr a op = true) →
    opsOk s ops → a ∈ listAddrs (run s ops)
  | [], _, _, ha, _, _ => ha
  | op :: rest, s, h, _, hall, hok => by
    refine mem_addrs_run_map rest (inv_step h hok.1) ?_
      (fun o ho => hall o (List.mem_cons_of_mem _ ho)) hok.2
    exact mem_addrs_step_map h (hall op (List.mem_cons_self _ _)) hok.1

theorem stamp_foldl_isSome (a : Nat) : ∀ (ops : List Op) (g : Log),
    ((ops.foldl (logStep none) g).stamp a).isSome ↔
      ((g.stamp a).isSome ∨ ∃ op ∈ ops, recordsAddr a op = true)
  | [], g => by simp
  | op :: rest, g => by
    rw [List.foldl_cons, stamp_foldl_isSome a rest]
    have key : ((logStep none g op).stamp a).isSome ↔
        ((g.stamp a).isSome ∨ recordsAddr a op = true) := by
      cases op with
      | map mm b page si =>
        by_cases e : a = b
        · subst e; simp [logStep, setStamp, recordsAddr]
        · have e2 : ¬ b = a := fun h => e h.symm
          simp [logStep, setStamp, recordsAddr, e, e2]
      | access b =>
        by_cases e : a = b
        · subst e
          cases hs : (g.stamp a).isSome <;> simp [logStep, setStamp, recordsAddr, hs]
        · cases hs : (g.stamp b).isSome <;> simp [logStep, setStamp, recordsAddr, hs, e]
      | victim mm t => simp [logStep, recordsAddr]
    rw [key]
    simp only [List.mem_cons, exists_eq_or_imp, or_assoc]

/-! ## The contract -/

/-- The admissibility condition on the entry cannot be dropped: handing
`record_access` of `0x3000` the entry that is linked under `0x4000` leaves two
linked entries with the identity `0x3000`. -/
theorem entryOk_needed :
    ¬ entryOk checkStart 0x3000 4 ∧
    listAddrs (_lru_map_swappable checkMm 0x3000 4 0 checkStart).2 =
      [0x3000, 0x3000, 0x2000, 0x1000] := by
  decide

/-- C1, membership equivalence.  In every state reachable from `init` by
`record_access`, `touch` and `select_victim` calls, the Index lookup of an
identity succeeds exactly when an entry with that identity is linked in the
Recency List; the lookup returns that entry, and an entry sits in a bucket chain
exactly when it is linked in the list. -/
theorem membership_equivalence (s : State) (h : Reachable s) (a : Nat) :
    ((lookup s a).isSome ↔ ∃ p ∈ s.lru_list_head, (s.pages p).pra_vaddr = a) ∧
    (∀ p, lookup s a = some p ↔ (p ∈ s.lru_list_head ∧ (s.pages p).pra_vaddr = a)) ∧
    (∀ p, (∃ i, p ∈ s.page_hash_table.buckets i) ↔ p ∈ s.lru_list_head) := by
  have hi := inv_of_reachable h
  refine ⟨?_, lookup_eq_some_iff hi a, ?_⟩
  · rw [lookup_isSome_iff hi a]
    simp [listAddrs]
  · intro p
    constructor
    · rintro ⟨i, hm⟩; exact ((hi.bucket_mem i p).1 hm).1
    · intro hm; exact ⟨_, (hi.bucket_mem _ p).2 ⟨hm, rfl⟩⟩

theorem membership_equivalence_witness :
    Reachable checkStart ∧
    (((lookup checkStart 0x3000).isSome ↔
        ∃ p ∈ checkStart.lru_list_head, (checkStart.pages p).pra_vaddr = 0x3000) ∧
      (∀ p, lookup checkStart 0x3000 = some p ↔
        (p ∈ checkStart.lru_list_head ∧ (checkStart.pages p).pra_vaddr = 0x3000)) ∧
      (∀ p, (∃ i, p ∈ checkStart.page_hash_table.buckets i) ↔
        p ∈ checkStart.lru_list_head)) :=
  ⟨⟨checkMm, bootState, fillOps, by decide, rfl⟩,
    membership_equivalence checkStart ⟨checkMm, bootState, fillOps, by decide, rfl⟩ 0x3000⟩

/-- C2, recency ordering.  After `init` and any sequence of `record_access` and
`touch` calls, the Recency List read head to tail holds exactly the tracked
identities, in strictly decreasing order of the time of their last access; it is
the only list with these two properties, and the identity processed by the last
call (when that call is a `record_access`, or a `touch` of a tracked identity)
is at the head. -/
theorem recency_ordering (mm : mm_struct) (s0 : State) (ops : List Op)
    (hops : ∀ op ∈ ops, isVictim op = false)
    (hok : opsOk (_lru_init_mm mm s0).2.2 ops) :
    (∀ a, a ∈ listAddrs (run (_lru_init_mm mm s0).2.2 ops) ↔
      ((accessLog ops).stamp a).isSome) ∧
    (∀ a, a ∈ listAddrs (run (_lru_init_mm mm s0).2.2 ops) ↔
      ∃ op ∈ ops, recordsAddr a op = true) ∧
    (listAddrs (run (_lru_init_mm mm s0).2.2 ops)).Pairwise (newer (accessLog ops)) ∧
    (∀ l : List Nat, (∀ a, a ∈ l ↔ ((accessLog ops).stamp a).isSome) →
      l.Pairwise (newer (accessLog ops)) →
      l = listAddrs (run (_lru_init_mm mm s0).2.2 ops)) ∧
    (∀ ops1 m a page si, ops = ops1 ++ [Op.map m a page si] →
      (listAddrs (run (_lru_init_mm mm s0).2.2 ops)).head? = some a) ∧
    (∀ ops1 a, ops = ops1 ++ [Op.access a] →
      a ∈ listAddrs (run (_lru_init_mm mm s0).2.2 ops1) →
      (listAddrs (run (_lru_init_mm mm s0).2.2 ops)).head? = some a) := by
  have hi := inv_init mm s0
  have ht : TInv (listAddrs (_lru_init_mm mm s0).2.2) Log.empty := tinv_empty
  have hr := tinv_run ops hi ht hok
  rw [runLog_eq_foldl ops _ _ hops] at hr
  change TInv _ (accessLog ops) at hr
  refine ⟨fun a => (hr.tracked a).symm, ?_, hr.sorted, ?_, ?_, ?_⟩
  · intro a
    rw [← hr.tracked a]
    show ((ops.foldl (logStep none) Log.empty).stamp a).isSome ↔ _
    rw [stamp_foldl_isSome a ops Log.empty]
    simp [Log.empty]
  · intro l hl hs
    exact sorted_unique (fun a => (hl a).trans (hr.tracked a)) hs hr.sorted
  · intro ops1 m a page si e
    subst e
    have hok' := (opsOk_append ops1 _ _).1 hok
    rw [run_append]
    show (listAddrs (_lru_map_swappable m a page si _).2).head? = some a
    rw [addrs_map (inv_run ops1 hi hok'.1) m si hok'.2.1]
    rfl
  · intro ops1 a e ha
    subst e
    have hok' := (opsOk_append ops1 _ _).1 hok
    rw [run_append]
    show (listAddrs (_lru_access_addr a _).2).head? = some a
    rw [addrs_access_hit (inv_run ops1 hi hok'.1) ha]
    rfl


theorem recency_ordering_witness :
    (∀ op ∈ fillOps ++ [Op.access 0x3000, Op.access 0x1000], isVictim op = false) ∧
    opsOk (_lru_init_mm checkMm bootState).2.2
      (fillOps ++ [Op.access 0x3000, Op.access 0x1000]) ∧
    listAddrs (run (_lru_init_mm checkMm bootState).2.2
      (fillOps ++ [Op.access 0x3000, Op.access 0x1000])) = [0x1000, 0x3000, 0x4000, 0x2000] ∧
    (listAddrs (run (_lru_init_mm checkMm bootState).2.2
      (fillOps ++ [Op.access 0x3000, Op.access 0x1000]))).Pairwise
        (newer (accessLog (fillOps ++ [Op.access 0x3000, Op.access 0x1000]))) :=
  ⟨by decide, by decide, by decide,
    (recency_ordering checkMm bootState (fillOps ++ [Op.access 0x3000, Op.access 0x1000])
      (by decide) (by decide)).2.2.1⟩

/-- C3, victim correctness.  In every reachable state with at least one tracked
entry, `select_victim` returns a linked entry whose identity has the oldest last
access of all tracked identities (every other tracked identity was accessed
strictly later); after the call that identity is found neither by the Index
lookup nor in the Recency List, and the entry is in no bucket chain. -/
theorem victim_correctness (mm : mm_struct) (s0 : State) (ops : List Op)
    (hok : opsOk (_lru_init_mm mm s0).2.2 ops)
    (hne : (run (_lru_init_mm mm s0).2.2 ops).lru_list_head ≠ [])
    (m : mm_struct) (t : Int) :
    ∃ p tp,
      (_lru_swap_out_victim m t (run (_lru_init_mm mm s0).2.2 ops)).1 = 0 ∧
      (_lru_swap_out_victim m t (run (_lru_init_mm mm s0).2.2 ops)).2.1 = some p ∧
      p ∈ (run (_lru_init_mm mm s0).2.2 ops).lru_list_head ∧
      (runLog (_lru_init_mm mm s0).2.2 Log.empty ops).stamp
        ((run (_lru_init_mm mm s0).2.2 ops).pages p).pra_vaddr = some tp ∧
      (∀ a ta, (runLog (_lru_init_mm mm s0).2.2 Log.empty ops).stamp a = some ta →
        a ≠ ((run (_lru_init_mm mm s0).2.2 ops).pages p).pra_vaddr → tp < ta) ∧
      lookup (_lru_swap_out_victim m t (run (_lru_init_mm mm s0).2.2 ops)).2.2
        ((run (_lru_init_mm mm s0).2.2 ops).pages p).pra_vaddr = none ∧
      ((run (_lru_init_mm mm s0).2.2 ops).pages p).pra_vaddr ∉
        listAddrs (_lru_swap_out_victim m t (run (_lru_init_mm mm s0).2.2 ops)).2.2 ∧
      p ∉ (_lru_swap_out_victim m t (run (_lru_init_mm mm s0).2.2 ops)).2.2.lru_list_head ∧
      (∀ i, p ∉ (_lru_swap_out_victim m t
        (run (_lru_init_mm mm s0).2.2 ops)).2.2.page_hash_table.buckets i) := by
  have hi0 := inv_init mm s0
  have hi := inv_run ops hi0 hok
  have ht := tinv_run ops hi0 (tinv_empty : TInv (listAddrs (_lru_init_mm mm s0).2.2) Log.empty) hok
  generalize run (_lru_init_mm mm s0).2.2 ops = s at hi ht hne ⊢
  generalize runLog (_lru_init_mm mm s0).2.2 Log.empty ops = g at ht ⊢
  cases hp : s.lru_list_head.getLast? with
  | none => exact absurd (List.getLast?_eq_none_iff.1 hp) hne
  | some p =>
    have hpm := List.mem_of_getLast?_eq_some hp
    have hi' := inv_victim hi m t
    have ha' := addrs_victim hi m t
    have hlast : (listAddrs s).getLast? = some (s.pages p).pra_vaddr := by
      simp [listAddrs, List.getLast?_map, hp]
    have hd := List.dropLast_append_getLast? _ hlast
    have hnd := hi.addrs_nodup
    rw [← hd] at hnd
    have hnotin : (s.pages p).pra_vaddr ∉ (listAddrs s).dropLast := fun hm =>
      (List.nodup_append.1 hnd).2.2 hm (List.mem_singleton_self _)
    obtain ⟨tp, htp⟩ := Option.isSome_iff_exists.1
      ((ht.tracked _).2 (List.mem_map_of_mem (fun q => (s.pages q).pra_vaddr) hpm))
    have hsorted := ht.sorted
    rw [← hd] at hsorted
    have hlt := (List.pairwise_append.1 hsorted).2.2
    rw [victim_some m t hp] at hi' ha' ⊢
    refine ⟨p, tp, rfl, rfl, hpm, htp, ?_, ?_, ?_, ?_, ?_⟩
    · intro a ta hta hne'
      have hmem : a ∈ listAddrs s := (ht.tracked a).1 (by simp [hta])
      rw [← hd, List.mem_append, List.mem_singleton] at hmem
      rcases hmem with hmem | hmem
      · obtain ⟨ta', tp', e1, e2, hl⟩ := hlt a hmem _ (List.mem_singleton_self _)
        rw [hta] at e1; rw [htp] at e2
        cases e1; cases e2
        exact hl
      · exact absurd hmem hne'
    · rw [lookup_eq_none_iff hi', ha']
      exact hnotin
    · rw [ha']; exact hnotin
    · exact (list_nodup_of_inv hi).not_mem_erase
    · intro i hm
      exact (list_nodup_of_inv hi).not_mem_erase ((hi'.bucket_mem i p).1 hm).1

theorem victim_correctness_witness :
    opsOk (_lru_init_mm checkMm bootState).2.2 fillOps ∧
    (run (_lru_init_mm checkMm bootState).2.2 fillOps).lru_list_head ≠ [] ∧
    (_lru_swap_out_victim checkMm 0 (run (_lru_init_mm checkMm bootState).2.2 fillOps)).2.1
      = some 1 ∧
    ∃ p tp,
      (_lru_swap_out_victim checkMm 0 (run (_lru_init_mm checkMm bootState).2.2 fillOps)).1 = 0 ∧
      (_lru_swap_out_victim checkMm 0
        (run (_lru_init_mm checkMm bootState).2.2 fillOps)).2.1 = some p ∧
      p ∈ (run (_lru_init_mm checkMm bootState).2.2 fillOps).lru_list_head ∧
      (runLog (_lru_init_mm checkMm bootState).2.2 Log.empty fillOps).stamp
        ((run (_lru_init_mm checkMm bootState).2.2 fillOps).pages p).pra_vaddr = some tp ∧
      (∀ a ta, (runLog (_lru_init_mm checkMm bootState).2.2 Log.empty fillOps).stamp a = some ta →
        a ≠ ((run (_lru_init_mm checkMm bootState).2.2 fillOps).pages p).pra_vaddr → tp < ta) ∧
      lookup (_lru_swap_out_victim checkMm 0
          (run (_lru_init_mm checkMm bootState).2.2 fillOps)).2.2
        ((run (_lru_init_mm checkMm bootState).2.2 fillOps).pages p).pra_vaddr = none ∧
      ((run (_lru_init_mm checkMm bootState).2.2 fillOps).pages p).pra_vaddr ∉
        listAddrs (_lru_swap_out_victim checkMm 0
          (run (_lru_init_mm checkMm bootState).2.2 fillOps)).2.2 ∧
      p ∉ (_lru_swap_out_victim checkMm 0
        (run (_lru_init_mm checkMm bootState).2.2 fillOps)).2.2.lru_list_head ∧
      (∀ i, p ∉ (_lru_swap_out_victim checkMm 0
        (run (_lru_init_mm checkMm bootState).2.2 fillOps)).2.2.page_hash_table.buckets i) :=
  ⟨by decide, by decide, by decide,
    victim_correctness checkMm bootState fillOps (by decide) (by decide) checkMm 0⟩


/-- C4, no duplication.  In every reachable state no identity occurs more than
once in the Recency List (and no entry is linked twice); calling `record_access`
any positive number of times on one identity leaves exactly one entry for it. -/
theorem no_duplication (s : State) (h : Reachable s) :
    (∀ a, (listAddrs s).count a ≤ 1) ∧ s.lru_list_head.Nodup ∧
    (∀ (a : Nat) (ops : List Op), ops ≠ [] → (∀ op ∈ ops, recordsAddr a op = true) →
      opsOk s ops → (listAddrs (run s ops)).count a = 1) := by
  have hi := inv_of_reachable h
  refine ⟨fun a => List.nodup_iff_count_le_one.1 hi.addrs_nodup a, list_nodup_of_inv hi, ?_⟩
  intro a ops hne hall hok
  cases ops with
  | nil => exact absurd rfl hne
  | cons op rest =>
    have hi1 := inv_step hi hok.1
    have hm : a ∈ listAddrs (run (step s op) rest) :=
      mem_addrs_run_map rest hi1 (mem_addrs_step_map hi (hall op (List.mem_cons_self _ _)) hok.1)
        (fun o ho => hall o (List.mem_cons_of_mem _ ho)) hok.2
    exact List.count_eq_one_of_mem (inv_run rest hi1 hok.2).addrs_nodup hm

theorem no_duplication_witness :
    Reachable checkStart ∧
    ((∀ a, (listAddrs checkStart).count a ≤ 1) ∧ checkStart.lru_list_head.Nodup ∧
      (∀ (a : Nat) (ops : List Op), ops ≠ [] → (∀ op ∈ ops, recordsAddr a op = true) →
        opsOk checkStart ops → (listAddrs (run checkStart ops)).count a = 1)) :=
  ⟨⟨checkMm, bootState, fillOps, by decide, rfl⟩,
    no_duplication checkStart ⟨checkMm, bootState, fillOps, by decide, rfl⟩⟩

/-- C5, touch on an absent key is inert.  In every state, when the Index lookup
of an identity finds nothing (in a reachable state: when no linked entry has
that identity), `touch` returns the identity it was given and leaves the whole
state, the Recency List and the Index included, unchanged. -/
theorem touch_absent_inert (s : State) (a : Nat)
    (h : lookup s a = none ∨ (Reachable s ∧ a ∉ listAddrs s)) :
    _lru_access_addr a s = (a, s) := by
  rcases h with h | ⟨hr, ha⟩
  · exact access_miss h
  · exact addrs_access_miss (inv_of_reachable hr) ha

theorem touch_absent_inert_witness :
    (lookup checkStart 0x5000 = none ∨ (Reachable checkStart ∧ 0x5000 ∉ listAddrs checkStart)) ∧
    _lru_access_addr 0x5000 checkStart = (0x5000, checkStart) :=
  ⟨Or.inl (by decide), touch_absent_inert checkStart 0x5000 (Or.inl (by decide))⟩

/-- C6, touch on a tracked key is move-to-front.  In every reachable state and
for every tracked identity `a`, `touch a` returns `a`, leaves the page heap and
the Index unchanged, keeps the set of tracked identities, and the new list is
`a` followed by the old list with `a` removed, the other identities keeping
their relative order. -/
theorem touch_tracked_move_to_front (s : State) (h : Reachable s) (a : Nat)
    (ha : a ∈ listAddrs s) :
    (_lru_access_addr a s).1 = a ∧
    (_lru_access_addr a s).2.pages = s.pages ∧
    (_lru_access_addr a s).2.page_hash_table = s.page_hash_table ∧
    (∀ b, lookup (_lru_access_addr a s).2 b = lookup s b) ∧
    (∀ b, b ∈ listAddrs (_lru_access_addr a s).2 ↔ b ∈ listAddrs s) ∧
    listAddrs (_lru_access_addr a s).2 = a :: (listAddrs s).erase a ∧
    a ∉ (listAddrs s).erase a ∧
    (listAddrs (_lru_access_addr a s).2).filter (fun b => decide (b ≠ a)) =
      (listAddrs s).filter (fun b => decide (b ≠ a)) := by
  have hi := inv_of_reachable h
  have hl := addrs_access_hit hi ha
  obtain ⟨E, hE⟩ := Option.isSome_iff_exists.1 ((lookup_isSome_iff hi a).2 ha)
  have hnd := hi.addrs_nodup
  refine ⟨?_, ?_, ?_, ?_, ?_, hl, hnd.not_mem_erase, ?_⟩
  · rw [access_hit hE]
  · rw [access_hit hE]
  · rw [access_hit hE]
  · intro b; rw [access_hit hE]; rfl
  · intro b; rw [hl]; exact mem_moveFront ha b
  · rw [hl, hnd.erase_eq_filter]
    simp only [List.filter_cons, List.filter_filter, ne_eq, not_true_eq_false, decide_False,
      Bool.false_eq_true, if_false]
    apply List.filter_congr
    intro x _
    by_cases e : x = a <;> simp [e]

theorem touch_tracked_move_to_front_witness :
    Reachable checkStart ∧ 0x3000 ∈ listAddrs checkStart ∧
    listAddrs checkStart = [0x4000, 0x3000, 0x2000, 0x1000] ∧
    listAddrs (_lru_access_addr 0x3000 checkStart).2 = [0x3000, 0x4000, 0x2000, 0x1000] ∧
    (_lru_access_addr 0x3000 checkStart).1 = 0x3000 ∧
    (_lru_access_addr 0x3000 checkStart).2.page_hash_table = checkStart.page_hash_table :=
  ⟨⟨checkMm, bootState, fillOps, by decide, rfl⟩, by decide, by decide, by decide,
    (touch_tracked_move_to_front checkStart ⟨checkMm, bootState, fillOps, by decide, rfl⟩
      0x3000 (by decide)).1,
    (touch_tracked_move_to_front checkStart ⟨checkMm, bootState, fillOps, by decide, rfl⟩
      0x3000 (by decide)).2.2.1⟩

/-- C7, `record_access` on a new identity inserts without evicting.  In every
reachable state, for every untracked identity `a` and every entry that is not
linked, `record_access` returns 0, stamps the entry with `a`, makes `a` found
by the Index lookup, and the new list is the new entry followed by the whole old
list, so the tracked count grows by exactly one. -/
theorem record_access_new (s : State) (h : Reachable s) (mm : mm_struct) (a page : Nat)
    (si : Int) (ha : a ∉ listAddrs s) (hp : page ∉ s.lru_list_head) :
    (_lru_map_swappable mm a page si s).1 = 0 ∧
    (_lru_map_swappable mm a page si s).2.pages page = { pra_vaddr := a, key := a } ∧
    lookup (_lru_map_swappable mm a page si s).2 a = some page ∧
    (_lru_map_swappable mm a page si s).2.lru_list_head = page :: s.lru_list_head ∧
    listAddrs (_lru_map_swappable mm a page si s).2 = a :: listAddrs s ∧
    (listAddrs (_lru_map_swappable mm a page si s).2).length = (listAddrs s).length + 1 := by
  have hi := inv_of_reachable h
  have hok : entryOk s a page := Or.inl hp
  have hn := (lookup_eq_none_iff hi a).2 ha
  have hi' := inv_map hi mm si hok
  have hl := addrs_map hi mm si hok
  rw [List.erase_of_not_mem ha] at hl
  have hlk : lookup (_lru_map_swappable mm a page si s).2 a = some page := by
    rw [lookup_eq_some_iff hi']
    rw [map_miss hi mm si hok hn]
    exact ⟨List.mem_cons_self _ _, by simp [store]⟩
  refine ⟨?_, ?_, hlk, ?_, hl, ?_⟩
  · rw [map_miss hi mm si hok hn]
  · rw [map_miss hi mm si hok hn]; simp [store]
  · rw [map_miss hi mm si hok hn]; rfl
  · rw [hl]; rfl

theorem record_access_new_witness :
    Reachable (_lru_access_addr 0x1000 (_lru_access_addr 0x3000 checkStart).2).2 ∧
    0x5000 ∉ listAddrs (_lru_access_addr 0x1000 (_lru_access_addr 0x3000 checkStart).2).2 ∧
    5 ∉ (_lru_access_addr 0x1000 (_lru_access_addr 0x3000 checkStart).2).2.lru_list_head ∧
    listAddrs (_lru_access_addr 0x1000 (_lru_access_addr 0x3000 checkStart).2).2 =
      [0x1000, 0x3000, 0x4000, 0x2000] ∧
    listAddrs (_lru_map_swappable checkMm 0x5000 5 1
      (_lru_access_addr 0x1000 (_lru_access_addr 0x3000 checkStart).2).2).2 =
      [0x5000, 0x1000, 0x3000, 0x4000, 0x2000] ∧
    (_lru_map_swappable checkMm 0x5000 5 1
      (_lru_access_addr 0x1000 (_lru_access_addr 0x3000 checkStart).2).2).1 = 0 :=
  ⟨⟨checkMm, bootState, fillOps ++ [Op.access 0x3000, Op.access 0x1000], by decide, rfl⟩,
    by decide, by decide, by decide, by decide,
    (record_access_new _
      ⟨checkMm, bootState, fillOps ++ [Op.access 0x3000, Op.access 0x1000], by decide, rfl⟩
      checkMm 0x5000 5 1 (by decide) (by decide)).1⟩

/-- C8, `record_access` on a tracked identity is the hit path.  In every
reachable state, for every tracked identity `a` and every admissible entry
argument, `record_access` returns 0, leaves the Index and its membership and the
tracked count unchanged, and the new list is `a` followed by the old list with
`a` removed; the resulting List and Index are those left by `touch a`. -/
theorem record_access_hit (s : State) (h : Reachable s) (mm : mm_struct) (a page : Nat)
    (si : Int) (ha : a ∈ listAddrs s) (hok : entryOk s a page) :
    (_lru_map_swappable mm a page si s).1 = 0 ∧
    (_lru_map_swappable mm a page si s).2.page_hash_table = s.page_hash_table ∧
    (∀ b, lookup (_lru_map_swappable mm a page si s).2 b = lookup s b) ∧
    (listAddrs (_lru_map_swappable mm a page si s).2).length = (listAddrs s).length ∧
    listAddrs (_lru_map_swappable mm a page si s).2 = a :: (listAddrs s).erase a ∧
    (_lru_map_swappable mm a page si s).2.lru_list_head =
      (_lru_access_addr a s).2.lru_list_head ∧
    (_lru_map_swappable mm a page si s).2.page_hash_table =
      (_lru_access_addr a s).2.page_hash_table ∧
    listAddrs (_lru_map_swappable mm a page si s).2 = listAddrs (_lru_access_addr a s).2 ∧
    (∀ b, lookup (_lru_map_swappable mm a page si s).2 b =
      lookup (_lru_access_addr a s).2 b) := by
  have hi := inv_of_reachable h
  obtain ⟨E, hE⟩ := Option.isSome_iff_exists.1 ((lookup_isSome_iff hi a).2 ha)
  have hl := addrs_map hi mm si hok
  have hst := store_eq_of_entryOk hi hok
  have hlk : ∀ b, lookup (_lru_map_swappable mm a page si s).2 b = lookup s b := by
    intro b
    rw [map_hit hi mm si hok hE]
    exact lookup_congr hi hst b
  refine ⟨?_, ?_, hlk, ?_, hl, ?_, ?_, ?_, ?_⟩
  · rw [map_hit hi mm si hok hE]
  · rw [map_hit hi mm si hok hE]
  · rw [hl, List.length_cons, List.length_erase_of_mem ha]
    have : 0 < (listAddrs s).length := List.length_pos_of_mem ha
    omega
  · rw [map_hit hi mm si hok hE, access_hit hE]
  · rw [map_hit hi mm si hok hE, access_hit hE]
  · rw [hl, addrs_access_hit hi ha]
  · intro b
    rw [hlk b, access_hit hE]
    rfl

theorem record_access_hit_witness :
    Reachable checkStart ∧ 0x2000 ∈ listAddrs checkStart ∧ entryOk checkStart 0x2000 9 ∧
    listAddrs (_lru_map_swappable checkMm 0x2000 9 0 checkStart).2 =
      0x2000 :: (listAddrs checkStart).erase 0x2000 :=
  ⟨⟨checkMm, bootState, fillOps, by decide, rfl⟩, by decide, by decide,
    (record_access_hit checkStart ⟨checkMm, bootState, fillOps, by decide, rfl⟩
      checkMm 0x2000 9 0 (by decide) (by decide)).2.2.2.2.1⟩

/-- C9, `select_victim` on an empty tracked set.  When the Recency List is empty,
`select_victim` stores `NULL` in the result, returns 0, and leaves the whole
state, the List and the Index included, unchanged. -/
theorem select_victim_empty (mm : mm_struct) (in_tick : Int) (s : State)
    (h : s.lru_list_head = []) :
    _lru_swap_out_victim mm in_tick s = (0, none, s) :=
  victim_none mm in_tick h

theorem select_victim_empty_witness :
    (_lru_init_mm checkMm checkStart).2.2.lru_list_head = [] ∧
    _lru_swap_out_victim checkMm 0 (_lru_init_mm checkMm checkStart).2.2 =
      (0, none, (_lru_init_mm checkMm checkStart).2.2) :=
  ⟨rfl, select_victim_empty checkMm 0 (_lru_init_mm checkMm checkStart).2.2 rfl⟩

/-- C10, `init` resets the policy.  From every prior state `init` returns 0,
points `sm_priv` at the list head, and leaves the Recency List empty and every
bucket empty, so that no identity is found by lookup, an immediately following
`select_victim` returns none and an immediately following `touch` of any
identity changes nothing. -/
theorem init_resets (mm : mm_struct) (s : State) :
    (_lru_init_mm mm s).1 = 0 ∧
    (_lru_init_mm mm s).2.1.sm_priv = true ∧
    (_lru_init_mm mm s).2.2.lru_list_head = [] ∧
    (∀ i, (_lru_init_mm mm s).2.2.page_hash_table.buckets i = []) ∧
    (∀ a, lookup (_lru_init_mm mm s).2.2 a = none) ∧
    (∀ m t, _lru_swap_out_victim m t (_lru_init_mm mm s).2.2 =
      (0, none, (_lru_init_mm mm s).2.2)) ∧
    (∀ a, _lru_access_addr a (_lru_init_mm mm s).2.2 = (a, (_lru_init_mm mm s).2.2)) :=
  ⟨rfl, rfl, rfl, fun _ => rfl, fun _ => rfl, fun m t => victim_none m t rfl,
    fun _ => access_miss rfl⟩

/-! ## The self-check, the remaining callbacks and sequences of evictions -/

theorem victim_pages (mm : mm_struct) (t : Int) (s : State) :
    (_lru_swap_out_victim mm t s).2.2.pages = s.pages := by
  cases hp : s.lru_list_head.getLast? with
  | none => rw [victim_none mm t (List.getLast?_eq_none_iff.1 hp)]
  | some p => rw [victim_some mm t hp]

theorem check_access_spec {s : State} (h : Inv s) (mm : mm_struct) {a page : Nat}
    (hok : lookup s a = none → page ∉ s.lru_list_head) :
    Inv (check_access mm a page s).2 ∧
    (listAddrs (check_access mm a page s).2,
      (check_access mm a page s).1.map
        (fun p => ((check_access mm a page s).2.pages p).pra_vaddr)) =
      accessAddrs a (listAddrs s) := by
  cases hE : lookup s a with
  | some E =>
    have ha : a ∈ listAddrs s := (lookup_isSome_iff h a).1 (by simp [hE])
    simp only [check_access, hE, accessAddrs, ha, if_true, Option.map_none']
    exact ⟨inv_access h a, by rw [addrs_access_hit h ha]⟩
  | none =>
    have ha : a ∉ listAddrs s := (lookup_eq_none_iff h a).1 hE
    have hp : entryOk s a page := Or.inl (hok hE)
    have h1 := inv_map h mm 1 hp
    have hl1 := addrs_map h mm 1 hp
    rw [List.erase_of_not_mem ha] at hl1
    simp only [check_access, hE, access_miss hE, host_fault, accessAddrs, ha, if_false]
    refine ⟨inv_victim h1 mm 0, ?_⟩
    rw [addrs_victim h1 mm 0, victim_pages, victim_addr, hl1]

theorem check_trace_eq (mm : mm_struct) : ∀ (script : List (Nat × Nat)) {s : State}, Inv s →
    checkOk mm s script → check_trace mm s script = traceAddrs (listAddrs s) (script.map Prod.fst)
  | [], _, _, _ => rfl
  | (a, page) :: rest, s, h, hok => by
    have hs := check_access_spec h mm hok.1
    show (_, _) :: check_trace mm (check_access mm a page s).2 rest =
      accessAddrs a (listAddrs s) :: traceAddrs (accessAddrs a (listAddrs s)).1 (rest.map Prod.fst)
    rw [check_trace_eq mm rest hs.1 hok.2, hs.2]
    rw [← hs.2]

/-- C11, the self-check trace.  From every reachable state whose list reads
`0x4000 0x3000 0x2000 0x1000`, and whatever admissible entries the host hands
over at the four faults, the accesses of `_lru_check_swap` leave in turn the
eleven lists written in its comments, and the faults at `0x5000`, `0x3000`,
`0x4000`, `0x5000` evict `0x3000`, `0x4000`, `0x5000`, `0x2000`. -/
theorem self_check_trace (mm : mm_struct) (s : State) (h : Reachable s)
    (hl : listAddrs s = [0x4000, 0x3000, 0x2000, 0x1000]) (p1 p2 p3 p4 : Nat)
    (hok : checkOk mm s (checkScript p1 p2 p3 p4)) :
    check_trace mm s (checkScript p1 p2 p3 p4) =
      [([0x3000, 0x4000, 0x2000, 0x1000], none),
       ([0x1000, 0x3000, 0x4000, 0x2000], none),
       ([0x4000, 0x1000, 0x3000, 0x2000], none),
       ([0x2000, 0x4000, 0x1000, 0x3000], none),
       ([0x5000, 0x2000, 0x4000, 0x1000], some 0x3000),
       ([0x2000, 0x5000, 0x4000, 0x1000], none),
       ([0x1000, 0x2000, 0x5000, 0x4000], none),
       ([0x3000, 0x1000, 0x2000, 0x5000], some 0x4000),
       ([0x4000, 0x3000, 0x1000, 0x2000], some 0x5000),
       ([0x5000, 0x4000, 0x3000, 0x1000], some 0x2000),
       ([0x1000, 0x5000, 0x4000, 0x3000], none)] := by
  have e : (checkScript p1 p2 p3 p4).map Prod.fst =
      [0x3000, 0x1000, 0x4000, 0x2000, 0x5000, 0x2000, 0x1000, 0x3000, 0x4000, 0x5000,
        0x1000] := rfl
  rw [check_trace_eq mm _ (inv_of_reachable h) hok, hl, e]
  decide

theorem self_check_trace_witness :
    Reachable checkStart ∧ listAddrs checkStart = [0x4000, 0x3000, 0x2000, 0x1000] ∧
    checkOk checkMm checkStart (checkScript 5 3 4 5) ∧
    check_trace checkMm checkStart (checkScript 5 3 4 5) =
      [([0x3000, 0x4000, 0x2000, 0x1000], none),
       ([0x1000, 0x3000, 0x4000, 0x2000], none),
       ([0x4000, 0x1000, 0x3000, 0x2000], none),
       ([0x2000, 0x4000, 0x1000, 0x3000], none),
       ([0x5000, 0x2000, 0x4000, 0x1000], some 0x3000),
       ([0x2000, 0x5000, 0x4000, 0x1000], none),
       ([0x1000, 0x2000, 0x5000, 0x4000], none),
       ([0x3000, 0x1000, 0x2000, 0x5000], some 0x4000),
       ([0x4000, 0x3000, 0x1000, 0x2000], some 0x5000),
       ([0x5000, 0x4000, 0x3000, 0x1000], some 0x2000),
       ([0x1000, 0x5000, 0x4000, 0x3000], none)] :=
  ⟨⟨checkMm, bootState, fillOps, by decide, rfl⟩, by decide, by decide,
    self_check_trace checkMm checkStart ⟨checkMm, bootState, fillOps, by decide, rfl⟩
      (by decide) 5 3 4 5 (by decide)⟩

/-- C12, the swap-in flag is informational only.  For every state, address
space, identity and entry, `record_access` gives the same return value and the
same resulting state (heap, List and Index) for every value of `swap_in` as for
`swap_in = 0`; the address space argument is ignored as well. -/
theorem swap_in_ignored (mm mm2 : mm_struct) (addr page : Nat) (swap_in : Int) (s : State) :
    _lru_map_swappable mm addr page swap_in s = _lru_map_swappable mm addr page 0 s ∧
    _lru_map_swappable mm addr page swap_in s = _lru_map_swappable mm2 addr page swap_in s :=
  ⟨rfl, rfl⟩

/-- C13, `mark_unswappable` and `on_timer_tick` are no-ops.  For every state and
every argument `_lru_set_unswappable` and `_lru_tick_event` return 0 and leave
the state, the Recency List and the Index included, unchanged. -/
theorem unswappable_and_tick_are_noops (mm : mm_struct) (addr : Nat) (s : State) :
    _lru_set_unswappable mm addr s = (0, s) ∧ _lru_tick_event mm s = (0, s) :=
  ⟨rfl, rfl⟩

/-- C14, `select_victim` on a non-empty list removes exactly the tail.  In every
reachable state whose list is `front` followed by the entry `e`, `select_victim`
returns 0 and `e`, leaves the heap unchanged and the list equal to `front` in
the same order; afterwards the Index lookup still finds every entry of `front`
under its identity and no longer finds the identity of `e`, and `e` is in no
bucket chain. -/
theorem select_victim_removes_tail (s : State) (h : Reachable s) (mm : mm_struct) (t : Int)
    (front : List Nat) (e : Nat) (hl : s.lru_list_head = front ++ [e]) :
    (_lru_swap_out_victim mm t s).1 = 0 ∧
    (_lru_swap_out_victim mm t s).2.1 = some e ∧
    (_lru_swap_out_victim mm t s).2.2.pages = s.pages ∧
    (_lru_swap_out_victim mm t s).2.2.lru_list_head = front ∧
    listAddrs (_lru_swap_out_victim mm t s).2.2 = (listAddrs s).dropLast ∧
    (∀ p ∈ front, lookup (_lru_swap_out_victim mm t s).2.2 (s.pages p).pra_vaddr = some p) ∧
    lookup (_lru_swap_out_victim mm t s).2.2 (s.pages e).pra_vaddr = none ∧
    (∀ i, e ∉ (_lru_swap_out_victim mm t s).2.2.page_hash_table.buckets i) := by
  have hi := inv_of_reachable h
  have hp : s.lru_list_head.getLast? = some e := by rw [hl]; simp
  have hnd := list_nodup_of_inv hi
  have her : s.lru_list_head.erase e = front := by
    rw [erase_getLast hnd hp, hl, List.dropLast_concat]
  have hi' := inv_victim hi mm t
  have ha' := addrs_victim hi mm t
  have hnd' := hnd
  rw [hl] at hnd'
  have hef : e ∉ front := fun hm =>
    (List.nodup_append.1 hnd').2.2 hm (List.mem_singleton_self _)
  have hv : _lru_swap_out_victim mm t s =
      (0, some e,
        { pages := s.pages
          lru_list_head := front
          page_hash_table := hashtable_remove s.pages s.page_hash_table e hash_function }) := by
    rw [victim_some mm t hp]
    simp only [list_del, her]
  rw [hv] at hi' ha' ⊢
  dsimp only at hi' ha' ⊢
  refine ⟨rfl, rfl, rfl, rfl, ha', ?_, ?_, ?_⟩
  · intro p hp'
    rw [lookup_eq_some_iff hi']
    exact ⟨hp', rfl⟩
  · rw [lookup_eq_none_iff hi', ha']
    have hlast : (listAddrs s).getLast? = some (s.pages e).pra_vaddr := by
      simp [listAddrs, List.getLast?_map, hp]
    have hd := List.dropLast_append_getLast? _ hlast
    have hnda := hi.addrs_nodup
    rw [← hd] at hnda
    exact fun hm => (List.nodup_append.1 hnda).2.2 hm (List.mem_singleton_self _)
  · intro i hm
    exact hef ((hi'.bucket_mem i e).1 hm).1

theorem select_victim_removes_tail_witness :
    Reachable checkStart ∧ checkStart.lru_list_head = [4, 3, 2] ++ [1] ∧
    (_lru_swap_out_victim checkMm 0 checkStart).2.1 = some 1 ∧
    (_lru_swap_out_victim checkMm 0 checkStart).2.2.lru_list_head = [4, 3, 2] :=
  ⟨⟨checkMm, bootState, fillOps, by decide, rfl⟩, by decide,
    (select_victim_removes_tail checkStart ⟨checkMm, bootState, fillOps, by decide, rfl⟩
      checkMm 0 [4, 3, 2] 1 (by decide)).2.1,
    (select_victim_removes_tail checkStart ⟨checkMm, bootState, fillOps, by decide, rfl⟩
      checkMm 0 [4, 3, 2] 1 (by decide)).2.2.2.1⟩

/-! ## The oracle of the self-check -/

theorem check_loop_iff (pages : Nat → Page) (arr : List Nat) : ∀ (l : List Nat) (idx : Nat),
    (∃ k, list_for_each l
      (fun pos idx =>
        match arr.get? idx with
        | none => Except.error CheckStop.out_of_bounds
        | some expected =>
          if (pages pos).pra_vaddr = expected then Except.ok (idx + 1)
          else Except.error CheckStop.assert_failed) idx = Except.ok k) ↔
      l.map (fun p => (pages p).pra_vaddr) <+: arr.drop idx
  | [], idx => by simp [list_for_each]
  | p :: rest, idx => by
    unfold list_for_each
    cases hg : arr.get? idx with
    | none =>
      have hlen : arr.length ≤ idx := List.get?_eq_none.1 hg
      simp [List.drop_eq_nil_of_le hlen]
    | some e =>
      have hd : arr.drop idx = e :: arr.drop (idx + 1) := by
        have hlt : idx < arr.length := by
          by_contra hc
          rw [List.get?_eq_none.2 (Nat.le_of_not_lt hc)] at hg
          cases hg
        rw [List.drop_eq_getElem_cons hlt]
        congr 1
        rw [List.get?_eq_getElem? ] at hg
        rw [List.getElem?_eq_getElem hlt] at hg
        exact Option.some.inj hg
      rw [hd, List.map_cons, List.cons_prefix_cons]
      by_cases hv : (pages p).pra_vaddr = e
      · simp only [hv, if_true, true_and]
        exact check_loop_iff pages arr rest (idx + 1)
      · simp [hv]

/-- What `CHECK_LIST` accepts: exactly the lists that are a prefix of the four
expected addresses. -/
theorem checkPasses_iff_prefix (s : State) (a0 a1 a2 a3 : Nat) :
    checkPasses s a0 a1 a2 a3 ↔ listAddrs s <+: [a0, a1, a2, a3] := by
  unfold checkPasses CHECK_LIST listAddrs
  exact check_loop_iff s.pages [a0, a1, a2, a3] s.lru_list_head 0

/-- C15, the oracle is not exact.  On the empty list left by `init` the walk of
`CHECK_LIST` never enters its body, so the check for `0x4000 0x3000 0x2000
0x1000` passes although the list is not these four addresses; the same holds
for the two-entry list `0x2000 0x1000` checked against `0x2000 0x1000 0x4000
0x3000`. -/
theorem check_list_accepts_shorter_list :
    CHECK_LIST (_lru_init_mm checkMm bootState).2.2 0x4000 0x3000 0x2000 0x1000 = .ok 0 ∧
    listAddrs (_lru_init_mm checkMm bootState).2.2 ≠ [0x4000, 0x3000, 0x2000, 0x1000] ∧
    CHECK_LIST (run (_lru_init_mm checkMm bootState).2.2 (fillOps.take 2))
      0x2000 0x1000 0x4000 0x3000 = .ok 2 ∧
    listAddrs (run (_lru_init_mm checkMm bootState).2.2 (fillOps.take 2)) = [0x2000, 0x1000] :=
  ⟨rfl, by decide, rfl, by decide⟩

/-- The miss path of `record_access` under the invariant. -/
theorem map_new_of_inv {s : State} (hi : Inv s) (mm : mm_struct) {a page : Nat} (si : Int)
    (ha : a ∉ listAddrs s) (hp : page ∉ s.lru_list_head) :
    (_lru_map_swappable mm a page si s).1 = 0 ∧
    (_lru_map_swappable mm a page si s).2.lru_list_head = page :: s.lru_list_head ∧
    listAddrs (_lru_map_swappable mm a page si s).2 = a :: listAddrs s ∧
    lookup (_lru_map_swappable mm a page si s).2 a = some page := by
  have hok : entryOk s a page := Or.inl hp
  have hn := (lookup_eq_none_iff hi a).2 ha
  have hi' := inv_map hi mm si hok
  have hl := addrs_map hi mm si hok
  rw [List.erase_of_not_mem ha] at hl
  refine ⟨?_, ?_, hl, ?_⟩
  · rw [map_miss hi mm si hok hn]
  · rw [map_miss hi mm si hok hn]; rfl
  · rw [lookup_eq_some_iff hi', map_miss hi mm si hok hn]
    exact ⟨List.mem_cons_self _ _, by simp [store]⟩

/-- C16, an evicted entry can be tracked again.  In every reachable state, if
`select_victim` returns the entry `E`, then after any further admissible calls
that leave the identity of `E` untracked and `E` itself unlinked,
`record_access` of that identity with `E` takes the new-entry path: it returns
0 and puts `E` at the head of the otherwise unchanged list, where its identity
occurs exactly once and is found by the Index lookup. -/
theorem evicted_entry_tracked_again (s : State) (h : Reachable s) (mm : mm_struct) (t : Int)
    (E : Nat) (hv : (_lru_swap_out_victim mm t s).2.1 = some E) (ops : List Op)
    (hok : opsOk (_lru_swap_out_victim mm t s).2.2 ops)
    (ha : (s.pages E).pra_vaddr ∉ listAddrs (run (_lru_swap_out_victim mm t s).2.2 ops))
    (hE : E ∉ (run (_lru_swap_out_victim mm t s).2.2 ops).lru_list_head)
    (m : mm_struct) (si : Int) :
    s.lru_list_head ≠ [] ∧
    lookup (_lru_swap_out_victim mm t s).2.2 (s.pages E).pra_vaddr = none ∧
    (_lru_map_swappable m (s.pages E).pra_vaddr E si
      (run (_lru_swap_out_victim mm t s).2.2 ops)).1 = 0 ∧
    (_lru_map_swappable m (s.pages E).pra_vaddr E si
      (run (_lru_swap_out_victim mm t s).2.2 ops)).2.lru_list_head =
      E :: (run (_lru_swap_out_victim mm t s).2.2 ops).lru_list_head ∧
    listAddrs (_lru_map_swappable m (s.pages E).pra_vaddr E si
      (run (_lru_swap_out_victim mm t s).2.2 ops)).2 =
      (s.pages E).pra_vaddr :: listAddrs (run (_lru_swap_out_victim mm t s).2.2 ops) ∧
    (listAddrs (_lru_map_swappable m (s.pages E).pra_vaddr E si
      (run (_lru_swap_out_victim mm t s).2.2 ops)).2).count (s.pages E).pra_vaddr = 1 ∧
    lookup (_lru_map_swappable m (s.pages E).pra_vaddr E si
      (run (_lru_swap_out_victim mm t s).2.2 ops)).2 (s.pages E).pra_vaddr = some E := by
  have hi := inv_of_reachable h
  have hi1 := inv_victim hi mm t
  have hi2 := inv_run ops hi1 hok
  have hne : s.lru_list_head ≠ [] := by
    intro hnil
    rw [victim_none mm t hnil] at hv
    cases hv
  have hgl : s.lru_list_head.getLast? = some E := by
    cases hp : s.lru_list_head.getLast? with
    | none => exact absurd (List.getLast?_eq_none_iff.1 hp) hne
    | some p =>
      rw [victim_some mm t hp] at hv
      exact hv
  have hgone : lookup (_lru_swap_out_victim mm t s).2.2 (s.pages E).pra_vaddr = none := by
    rw [lookup_eq_none_iff hi1, addrs_victim hi mm t]
    have hlast : (listAddrs s).getLast? = some (s.pages E).pra_vaddr := by
      simp [listAddrs, List.getLast?_map, hgl]
    have hd := List.dropLast_append_getLast? _ hlast
    have hnda := hi.addrs_nodup
    rw [← hd] at hnda
    exact fun hm => (List.nodup_append.1 hnda).2.2 hm (List.mem_singleton_self _)
  obtain ⟨h1, h2, h3, h4⟩ := map_new_of_inv hi2 m si ha hE
  refine ⟨hne, hgone, h1, h2, h3, ?_, h4⟩
  rw [h3, List.count_cons_self, List.count_eq_zero_of_not_mem ha]

theorem evicted_entry_tracked_again_witness :
    Reachable checkStart ∧
    (_lru_swap_out_victim checkMm 0 checkStart).2.1 = some 1 ∧
    opsOk (_lru_swap_out_victim checkMm 0 checkStart).2.2 [Op.map checkMm 0x5000 5 1] ∧
    listAddrs (_lru_map_swappable checkMm 0x1000 1 1
      (run (_lru_swap_out_victim checkMm 0 checkStart).2.2 [Op.map checkMm 0x5000 5 1])).2 =
      [0x1000, 0x5000, 0x4000, 0x3000, 0x2000] ∧
    lookup (_lru_map_swappable checkMm (checkStart.pages 1).pra_vaddr 1 1
      (run (_lru_swap_out_victim checkMm 0 checkStart).2.2 [Op.map checkMm 0x5000 5 1])).2
      (checkStart.pages 1).pra_vaddr = some 1 :=
  ⟨⟨checkMm, bootState, fillOps, by decide, rfl⟩, by decide, by decide, by decide,
    (evicted_entry_tracked_again checkStart ⟨checkMm, bootState, fillOps, by decide, rfl⟩
      checkMm 0 1 (by decide) [Op.map checkMm 0x5000 5 1] (by decide) (by decide) (by decide)
      checkMm 1).2.2.2.2.2.2⟩

/-- C17, bucket selection.  `hash_function key` is `key mod 4`, a valid bucket
index below `BUCKET_SIZE`; it is 0 for every multiple of 4 and so for every
page-aligned address, and in every reachable state every linked entry with such
an identity sits in the chain of bucket 0. -/
theorem bucket_selection (key : Nat) :
    hash_function key = key % 4 ∧
    hash_function key < BUCKET_SIZE ∧
    hash_function key % BUCKET_SIZE = key % 4 ∧
    (4 ∣ key → hash_function key = 0) ∧
    (0x1000 ∣ key → hash_function key = 0) ∧
    (∀ s p, Reachable s → p ∈ s.lru_list_head → (s.pages p).pra_vaddr = key → 4 ∣ key →
      p ∈ s.page_hash_table.buckets 0) := by
  have hmod : hash_function key = key % 4 := rfl
  have hz : 4 ∣ key → hash_function key = 0 := fun hd => by
    rw [hmod]; exact Nat.mod_eq_zero_of_dvd hd
  refine ⟨hmod, ?_, ?_, hz, ?_, ?_⟩
  · rw [hmod]; exact Nat.mod_lt _ (by decide)
  · rw [hmod]; exact Nat.mod_mod _ _
  · intro hd
    exact hz (Dvd.dvd.trans (by decide : (4 : Nat) ∣ 0x1000) hd)
  · intro s p hr hp hv hd
    have hi := inv_of_reachable hr
    rw [hi.bucket_mem]
    refine ⟨hp, ?_⟩
    rw [hi.key_eq p hp, hv, hz hd]
    rfl

theorem bucket_selection_witness :
    hash_function 0x3000 = 0x3000 % 4 ∧ (4 ∣ 0x3000 → hash_function 0x3000 = 0) ∧
    (3 : Nat) ∈ checkStart.page_hash_table.buckets 0 :=
  ⟨(bucket_selection 0x3000).1, (bucket_selection 0x3000).2.2.2.1,
    (bucket_selection 0x3000).2.2.2.2.2 checkStart 3
      ⟨checkMm, bootState, fillOps, by decide, rfl⟩ (by decide) (by decide) (by decide)⟩

/-- C18, on the hit path the caller's entry is not the one tracked.  In every
reachable state in which the identity `a` is tracked by the entry `E`, and for
every entry `P` that is not linked, `record_access a P` returns 0, moves `E` to
the head of the list, leaves `P` out of the list and out of every bucket chain,
leaves the Index and every other page untouched, and overwrites the recorded
address and the hash key of `P` with `a`. -/
theorem hit_path_ignores_caller_entry (s : State) (h : Reachable s) (mm : mm_struct)
    (a E P : Nat) (si : Int) (hE : E ∈ s.lru_list_head) (ha : (s.pages E).pra_vaddr = a)
    (hP : P ∉ s.lru_list_head) :
    P ≠ E ∧
    (_lru_map_swappable mm a P si s).1 = 0 ∧
    (_lru_map_swappable mm a P si s).2.lru_list_head = E :: s.lru_list_head.erase E ∧
    P ∉ (_lru_map_swappable mm a P si s).2.lru_list_head ∧
    (_lru_map_swappable mm a P si s).2.page_hash_table = s.page_hash_table ∧
    (∀ i, P ∉ (_lru_map_swappable mm a P si s).2.page_hash_table.buckets i) ∧
    (_lru_map_swappable mm a P si s).2.pages P = { pra_vaddr := a, key := a } ∧
    (∀ q, q ≠ P → (_lru_map_swappable mm a P si s).2.pages q = s.pages q) ∧
    lookup (_lru_map_swappable mm a P si s).2 a = some E := by
  have hi := inv_of_reachable h
  have hok : entryOk s a P := Or.inl hP
  have hlk := (lookup_eq_some_iff hi a E).2 ⟨hE, ha⟩
  have hne : P ≠ E := fun e => hP (e ▸ hE)
  have hst := store_eq_of_entryOk hi hok
  rw [map_hit hi mm si hok hlk]
  refine ⟨hne, rfl, rfl, ?_, rfl, ?_, ?_, ?_, ?_⟩
  · show P ∉ E :: s.lru_list_head.erase E
    rw [mem_moveFront hE]; exact hP
  · intro i hm
    exact hP ((hi.bucket_mem i P).1 hm).1
  · simp [store]
  · intro q hq; simp [store, hq]
  · have := lookup_congr hi hst a
    rw [hlk] at this
    exact this

theorem hit_path_ignores_caller_entry_witness :
    Reachable checkStart ∧ 3 ∈ checkStart.lru_list_head ∧
    (checkStart.pages 3).pra_vaddr = 0x3000 ∧ 9 ∉ checkStart.lru_list_head ∧
    (_lru_map_swappable checkMm 0x3000 9 0 checkStart).2.lru_list_head = [3, 4, 2, 1] ∧
    (_lru_map_swappable checkMm 0x3000 9 0 checkStart).2.pages 9 =
      { pra_vaddr := 0x3000, key := 0x3000 } :=
  ⟨⟨checkMm, bootState, fillOps, by decide, rfl⟩, by decide, by decide, by decide, by decide,
    (hit_path_ignores_caller_entry checkStart ⟨checkMm, bootState, fillOps, by decide, rfl⟩
      checkMm 0x3000 3 9 0 (by decide) (by decide) (by decide)).2.2.2.2.2.2.1⟩

theorem getLast?_cons_of_some {l : List Nat} {e : Nat} (h : l.getLast? = some e) (p : Nat) :
    (p :: l).getLast? = some e := by
  cases l with
  | nil => simp at h
  | cons x xs => rw [List.getLast?_cons_cons]; exact h

theorem insert_remove_comm {pages : Nat → Page} {ht : hashtable_t} {e page : Nat}
    (he : e ∈ ht.buckets (hash_function (pages e).key % ht.size)) :
    hashtable_insert pages (hashtable_remove pages ht e hash_function) page hash_function =
      hashtable_remove pages (hashtable_insert pages ht page hash_function) e hash_function := by
  unfold hashtable_insert hashtable_remove
  simp only [hashtable_t.mk.injEq, true_and]
  funext j
  simp only [setBucket]
  by_cases hxe : hash_function (pages page).key % ht.size =
      hash_function (pages e).key % ht.size
  · rw [hxe]
    by_cases hj : j = hash_function (pages e).key % ht.size
    · simp only [hj, if_true]
      rw [List.erase_append_left _ he]
    · simp only [hj, if_false]
  · have hex : ¬ hash_function (pages e).key % ht.size =
        hash_function (pages page).key % ht.size := fun h => hxe h.symm
    by_cases hj : j = hash_function (pages e).key % ht.size
    · subst hj
      simp only [hex, if_true, if_false]
    · by_cases hj2 : j = hash_function (pages page).key % ht.size
      · subst hj2
        simp only [hxe, if_true, if_false]
      · simp only [hj, hj2, hxe, if_false]

/-- C19, evict-then-insert and insert-then-evict.  In every reachable state, for
every untracked identity `x` and every entry that is not linked, the two orders
return the same victim and leave the same List and Index (and heap) exactly
when the list is non-empty beforehand; on the empty list the first order returns
no victim and leaves the one-entry list of `x`, the second returns the new entry
as victim and leaves the list empty. -/
theorem evict_insert_orders_agree (s : State) (h : Reachable s) (mm : mm_struct)
    (x page : Nat) (si t : Int) (hx : x ∉ listAddrs s) (hp : page ∉ s.lru_list_head) :
    (((evict_then_insert mm x page si t s).1 = (insert_then_evict mm x page si t s).1 ∧
        (evict_then_insert mm x page si t s).2.lru_list_head =
          (insert_then_evict mm x page si t s).2.lru_list_head ∧
        (evict_then_insert mm x page si t s).2.page_hash_table =
          (insert_then_evict mm x page si t s).2.page_hash_table) ↔
      s.lru_list_head ≠ []) ∧
    (s.lru_list_head ≠ [] →
      (evict_then_insert mm x page si t s).2.pages =
        (insert_then_evict mm x page si t s).2.pages) ∧
    (s.lru_list_head = [] →
      (evict_then_insert mm x page si t s).1 = none ∧
      (evict_then_insert mm x page si t s).2.lru_list_head = [page] ∧
      listAddrs (evict_then_insert mm x page si t s).2 = [x] ∧
      (insert_then_evict mm x page si t s).1 = some page ∧
      (insert_then_evict mm x page si t s).2.lru_list_head = [] ∧
      ((insert_then_evict mm x page si t s).2.pages page).pra_vaddr = x) := by
  have hi := inv_of_reachable h
  have hok : entryOk s x page := Or.inl hp
  have hn := (lookup_eq_none_iff hi x).2 hx
  have hm := map_miss hi mm si hok hn
  have hempty : s.lru_list_head = [] →
      (evict_then_insert mm x page si t s).1 = none ∧
      (evict_then_insert mm x page si t s).2.lru_list_head = [page] ∧
      listAddrs (evict_then_insert mm x page si t s).2 = [x] ∧
      (insert_then_evict mm x page si t s).1 = some page ∧
      (insert_then_evict mm x page si t s).2.lru_list_head = [] ∧
      ((insert_then_evict mm x page si t s).2.pages page).pra_vaddr = x := by
    intro hnil
    have hgl : (_lru_map_swappable mm x page si s).2.lru_list_head.getLast? = some page := by
      rw [hm]; simp [list_add, hnil]
    simp only [evict_then_insert, insert_then_evict, victim_none mm t hnil,
      victim_some mm t hgl]
    rw [hm]
    simp only [list_add, list_del, hnil, listAddrs, store, List.map_cons, List.map_nil,
      if_true, List.erase_cons_head]
    exact ⟨trivial, trivial, trivial, trivial, trivial, trivial⟩
  have hfull : s.lru_list_head ≠ [] →
      ((evict_then_insert mm x page si t s).1 = (insert_then_evict mm x page si t s).1 ∧
        (evict_then_insert mm x page si t s).2.lru_list_head =
          (insert_then_evict mm x page si t s).2.lru_list_head ∧
        (evict_then_insert mm x page si t s).2.page_hash_table =
          (insert_then_evict mm x page si t s).2.page_hash_table) ∧
      (evict_then_insert mm x page si t s).2.pages =
        (insert_then_evict mm x page si t s).2.pages := by
    intro hne
    cases hgl : s.lru_list_head.getLast? with
    | none => exact absurd (List.getLast?_eq_none_iff.1 hgl) hne
    | some e =>
      have hel := List.mem_of_getLast?_eq_some hgl
      have hpe : page ≠ e := fun e' => hp (e' ▸ hel)
      have hi1 := inv_victim hi mm t
      have hx1 : x ∉ listAddrs (_lru_swap_out_victim mm t s).2.2 := by
        rw [addrs_victim hi mm t]
        exact fun hmem => hx (List.mem_of_mem_dropLast hmem)
      have hn1 := (lookup_eq_none_iff hi1 x).2 hx1
      have hp1 : page ∉ (_lru_swap_out_victim mm t s).2.2.lru_list_head := by
        rw [victim_some mm t hgl]
        exact fun hmem => hp (List.mem_of_mem_erase hmem)
      have hm1 := map_miss hi1 mm si (Or.inl hp1) hn1
      have hgl2 : (_lru_map_swappable mm x page si s).2.lru_list_head.getLast? = some e := by
        rw [hm]; exact getLast?_cons_of_some hgl page
      have hkey : (store s.pages page { pra_vaddr := x, key := x } e) = s.pages e := by
        unfold store
        rw [if_neg (fun h' => hpe (Eq.symm h'))]
      have hbe : e ∈ s.page_hash_table.buckets
          (hash_function (s.pages e).key % s.page_hash_table.size) := by
        rw [hi.bucket_mem, hi.size_eq]; exact ⟨hel, rfl⟩
      simp only [evict_then_insert, insert_then_evict]
      rw [hm1, victim_some mm t hgl2, victim_some mm t hgl, hm]
      refine ⟨⟨rfl, ?_, ?_⟩, rfl⟩
      · show page :: s.lru_list_head.erase e = (page :: s.lru_list_head).erase e
        rw [List.erase_cons_tail (by simpa using hpe)]
      · show hashtable_insert (store s.pages page { pra_vaddr := x, key := x })
            (hashtable_remove s.pages s.page_hash_table e hash_function) page hash_function =
          hashtable_remove (store s.pages page { pra_vaddr := x, key := x })
            (hashtable_insert (store s.pages page { pra_vaddr := x, key := x })
              s.page_hash_table page hash_function) e hash_function
        have hrem : hashtable_remove s.pages s.page_hash_table e hash_function =
            hashtable_remove (store s.pages page { pra_vaddr := x, key := x })
              s.page_hash_table e hash_function := by
          unfold hashtable_remove; rw [hkey]
        rw [hrem]
        apply insert_remove_comm
        rw [hkey]; exact hbe
  refine ⟨⟨?_, fun hne => (hfull hne).1⟩, fun hne => (hfull hne).2, hempty⟩
  intro hagree hnil
  have he := hempty hnil
  rw [he.1, he.2.2.2.1] at hagree
  cases hagree.1

theorem evict_insert_orders_agree_witness :
    Reachable checkStart ∧ 0x5000 ∉ listAddrs checkStart ∧ 5 ∉ checkStart.lru_list_head ∧
    checkStart.lru_list_head ≠ [] ∧
    (evict_then_insert checkMm 0x5000 5 1 0 checkStart).1 =
      (insert_then_evict checkMm 0x5000 5 1 0 checkStart).1 ∧
    (evict_then_insert checkMm 0x5000 5 1 0 checkStart).2.lru_list_head =
      (insert_then_evict checkMm 0x5000 5 1 0 checkStart).2.lru_list_head ∧
    (evict_then_insert checkMm 0x5000 5 1 0 checkStart).2.page_hash_table =
      (insert_then_evict checkMm 0x5000 5 1 0 checkStart).2.page_hash_table :=
  ⟨⟨checkMm, bootState, fillOps, by decide, rfl⟩, by decide, by decide, by decide,
    (evict_insert_orders_agree checkStart ⟨checkMm, bootState, fillOps, by decide, rfl⟩
      checkMm 0x5000 5 1 0 (by decide) (by decide)).1.2 (by decide)⟩

theorem buckets_nil_of_inv {s : State} (hi : Inv s) (hl : s.lru_list_head = []) (i : Nat) :
    s.page_hash_table.buckets i = [] := by
  apply List.eq_nil_iff_forall_not_mem.2
  intro p hm
  have := ((hi.bucket_mem i p).1 hm).1
  rw [hl] at this
  cases this

theorem swap_out_n_drains (mm : mm_struct) (t : Int) : ∀ (n : Nat) {s : State}, Inv s →
    s.lru_list_head.length = n →
    (swap_out_n mm t n s).1 = s.lru_list_head.reverse.map some ∧
    (swap_out_n mm t n s).2.lru_list_head = [] ∧
    (swap_out_n mm t n s).2.pages = s.pages ∧
    Inv (swap_out_n mm t n s).2
  | 0, s, hi, hlen => by
    have hnil : s.lru_list_head = [] := List.length_eq_zero.1 hlen
    simp [swap_out_n, hnil, hi]
  | n + 1, s, hi, hlen => by
    have hne : s.lru_list_head ≠ [] := by
      intro hnil; rw [hnil] at hlen; cases hlen
    cases hgl : s.lru_list_head.getLast? with
    | none => exact absurd (List.getLast?_eq_none_iff.1 hgl) hne
    | some e =>
      have hd := List.dropLast_append_getLast? e hgl
      have her := erase_getLast (list_nodup_of_inv hi) hgl
      have hi1 := inv_victim hi mm t
      have hv := victim_some mm t hgl
      have hlist : (_lru_swap_out_victim mm t s).2.2.lru_list_head = s.lru_list_head.dropLast := by
        rw [hv]; exact her
      have hlen1 : (_lru_swap_out_victim mm t s).2.2.lru_list_head.length = n := by
        rw [hlist, List.length_dropLast, hlen]; rfl
      obtain ⟨h1, h2, h3, h4⟩ := swap_out_n_drains mm t n hi1 hlen1
      refine ⟨?_, h2, ?_, h4⟩
      · show (_lru_swap_out_victim mm t s).2.1 ::
            (swap_out_n mm t n (_lru_swap_out_victim mm t s).2.2).1 = _
        rw [h1, hlist]
        conv_rhs => rw [← hd]
        rw [List.reverse_append, hv]
        rfl
      · show (swap_out_n mm t n (_lru_swap_out_victim mm t s).2.2).2.pages = _
        rw [h3, hv]

theorem swap_out_n_succ (mm : mm_struct) (t : Int) : ∀ (n : Nat) (s : State),
    (swap_out_n mm t (n + 1) s).1 =
      (swap_out_n mm t n s).1 ++ [(_lru_swap_out_victim mm t (swap_out_n mm t n s).2).2.1]
  | 0, _ => rfl
  | n + 1, s => by
    show (_lru_swap_out_victim mm t s).2.1 ::
        (swap_out_n mm t (n + 1) (_lru_swap_out_victim mm t s).2.2).1 =
      ((_lru_swap_out_victim mm t s).2.1 ::
        (swap_out_n mm t n (_lru_swap_out_victim mm t s).2.2).1) ++ _
    rw [swap_out_n_succ mm t n (_lru_swap_out_victim mm t s).2.2]
    rfl

/-- C20, repeated eviction drains the list from the tail.  In every reachable
state whose list has `n` entries, `n` consecutive `select_victim` calls return
the entries from the tail to the head, each with status 0, and leave the List
empty and every bucket of the Index empty (no identity is found any more); one
more call returns none. -/
theorem repeated_eviction_drains (s : State) (h : Reachable s) (mm : mm_struct) (t : Int) :
    (swap_out_n mm t s.lru_list_head.length s).1 = s.lru_list_head.reverse.map some ∧
    (swap_out_n mm t s.lru_list_head.length s).2.lru_list_head = [] ∧
    (∀ i, (swap_out_n mm t s.lru_list_head.length s).2.page_hash_table.buckets i = []) ∧
    (∀ a, lookup (swap_out_n mm t s.lru_list_head.length s).2 a = none) ∧
    _lru_swap_out_victim mm t (swap_out_n mm t s.lru_list_head.length s).2 =
      (0, none, (swap_out_n mm t s.lru_list_head.length s).2) ∧
    (swap_out_n mm t (s.lru_list_head.length + 1) s).1 =
      s.lru_list_head.reverse.map some ++ [none] ∧
    (swap_out_n mm t s.lru_list_head.length s).1.map
        (Option.map (fun p => (s.pages p).pra_vaddr)) = (listAddrs s).reverse.map some ∧
    (∀ s1, (_lru_swap_out_victim mm t s1).1 = 0) := by
  have hi := inv_of_reachable h
  obtain ⟨h1, h2, _, h4⟩ := swap_out_n_drains mm t s.lru_list_head.length hi rfl
  have hlast := victim_none mm t h2
  refine ⟨h1, h2, buckets_nil_of_inv h4 h2, ?_, hlast, ?_, ?_, ?_⟩
  · intro a
    rw [lookup_eq_none_iff h4]
    simp [listAddrs, h2]
  · rw [swap_out_n_succ, h1, hlast]
  · rw [h1]
    simp [listAddrs, List.map_reverse, Function.comp_def]
  · intro s1
    cases hg : s1.lru_list_head.getLast? with
    | none => rw [victim_none mm t (List.getLast?_eq_none_iff.1 hg)]
    | some p => rw [victim_some mm t hg]

theorem repeated_eviction_drains_witness :
    Reachable checkStart ∧
    (swap_out_n checkMm 0 4 checkStart).1 = [some 1, some 2, some 3, some 4] ∧
    (swap_out_n checkMm 0 checkStart.lru_list_head.length checkStart).1 =
      checkStart.lru_list_head.reverse.map some ∧
    (swap_out_n checkMm 0 (checkStart.lru_list_head.length + 1) checkStart).1 =
      checkStart.lru_list_head.reverse.map some ++ [none] :=
  ⟨⟨checkMm, bootState, fillOps, by decide, rfl⟩, by decide,
    (repeated_eviction_drains checkStart ⟨checkMm, bootState, fillOps, by decide, rfl⟩
      checkMm 0).1,
    (repeated_eviction_drains checkStart ⟨checkMm, bootState, fillOps, by decide, rfl⟩
      checkMm 0).2.2.2.2.2.1⟩

end SwapLru
